import Mathlib

/-!
mpeg-probe: the MP4 box reader and tree walker.

A shallow embedding of `src/pprof/sample1/mpeg-probe.go`.

* A byte source (`io.Reader`: the opened file in `Probe`, a `bytes.Buffer` in
  `children`) is the list of bytes it still holds.  `Read` hands out as many
  bytes as are left, up to the length of the destination, and reports `io.EOF`
  only when nothing is left.
* `uint32` arithmetic is arithmetic on `Nat` modulo `2^32`; `int64` arithmetic
  is arithmetic on `Int` wrapped by `wrapInt64`.
* `Depth` is a Go `int` that starts at `0` and is only ever incremented; it is
  a `Nat` in `atom`.  `atomInt` and `childrenInt` take it as the 64-bit `int`
  it is, for receivers at any depth; the two agree on natural depths
  (`childrenInt_agrees`).
* What `fmt.Printf` writes is recorded as a list of `Event`s, in the order of
  the calls.
-/

namespace MpegProbe

/-- One byte. -/
abbrev Byte := Fin 256

/-- The bytes of an ASCII string literal (a Go `string` is a byte sequence). -/
def tag (s : String) : List Byte :=
  s.toList.map (fun c => Fin.ofNat c.toNat)

/-- Go error values: `io.EOF`, or any other error. -/
inductive Error where
  | EOF
  | other (msg : String)
  deriving DecidableEq, Repr

deriving instance DecidableEq for Except

/-- `type header struct { Size uint32; Name string }`. -/
structure header where
  Size : Nat
  Name : List Byte
  deriving DecidableEq, Repr

/-- `type atom struct { Header *header; Data []byte; Position int64; Depth int }`.
`Header` is a pointer in the source; `readAtom` returns no atom unless
`readHeader` has set it. -/
structure atom where
  Header : header
  Data : List Byte
  Position : Int
  Depth : Nat
  deriving DecidableEq, Repr

/-- `const headerSize = 8`. -/
def headerSize : Nat := 8

/-- Wrap-around of `int64` arithmetic. -/
def wrapInt64 (x : Int) : Int := (x + 2 ^ 63) % 2 ^ 64 - 2 ^ 63

/-- `binary.BigEndian.Uint32(b)`: `b[3] | b[2]<<8 | b[1]<<16 | b[0]<<24`. -/
def uint32BE (b : List Byte) : Nat :=
  (b.getD 3 0).val + (b.getD 2 0).val * 2 ^ 8 + (b.getD 1 0).val * 2 ^ 16
    + (b.getD 0 0).val * 2 ^ 24

/-- `r.Read(p)` on a source holding the bytes `r`: with nothing left it returns
`io.EOF` (or `0, nil` for an empty `p`); otherwise it copies
`n = min (len p) (len r)` bytes to the front of `p` and returns `n, nil`.
The result is `(n, p after the call, source after the call)`. -/
def Read (r p : List Byte) : Except Error (Nat × List Byte × List Byte) :=
  if r = [] then
    if p.length = 0 then .ok (0, p, r) else .error .EOF
  else
    let n := min p.length r.length
    .ok (n, r.take n ++ p.drop n, r.drop n)

/-- `io.CopyN(dst, r, n)` into an empty buffer: copies up to `n` bytes; the
error is `nil` exactly when `n` bytes were written, and `io.EOF` when the
source stopped early.  The result is `(bytes written, source after, error)`. -/
def CopyN (r : List Byte) (n : Nat) : List Byte × List Byte × Option Error :=
  let w := r.take n
  if w.length = n then (w, r.drop n, none) else (w, r.drop n, some .EOF)

/-- `readHeader`: reads into a fresh 8-byte buffer and decodes it. -/
def readHeader (r : List Byte) : Except Error (header × List Byte) :=
  let buf := List.replicate headerSize (0 : Byte)
  match Read r buf with
  | .error err => .error err
  | .ok (_, buf, r) =>
    .ok ({ Name := (buf.drop 4).take 4, Size := uint32BE (buf.take 4) }, r)

/-- Subtraction on `uint32`: `x - y` modulo `2^32`, for `x, y < 2^32`
(`subUint32_eq_mod`). -/
def subUint32 (x y : Nat) : Nat :=
  if y ≤ x then x - y else x + 2 ^ 32 - y

/-- `readBody`: copies `int64(a.Header.Size - headerSize)` bytes into a new
buffer, the subtraction being done in `uint32`.  The result is
`(Data, Position, source)`. -/
def readBody (h : header) (r : List Byte) : Except Error (List Byte × Int × List Byte) :=
  match CopyN r (subUint32 h.Size headerSize) with
  | (_, _, some err) => .error err
  | (w, r, none) => .ok (w, (h.Size : Int), r)

/-- `readAtom`: a header, then a body, into a fresh atom. -/
def readAtom (r : List Byte) : Except Error (atom × List Byte) :=
  match readHeader r with
  | .error err => .error err
  | .ok (h, r) =>
    match readBody h r with
    | .error err => .error err
    | .ok (d, p, r) => .ok ({ Header := h, Data := d, Position := p, Depth := 0 }, r)

/-- `var isobmff = map[string]bool{...}`, in source order. -/
def isobmff : List (List Byte × Bool) :=
  [ (tag "ftyp", false), (tag "pdin", false), (tag "moov", true), (tag "mvhd", false),
    (tag "trak", true), (tag "tkhd", false), (tag "tref", false), (tag "edts", false),
    (tag "elst", false), (tag "mdia", true), (tag "mdhd", false), (tag "hdlr", false),
    (tag "minf", true), (tag "vmhd", false), (tag "smhd", false), (tag "hmhd", false),
    (tag "nmhd", false), (tag "dinf", true), (tag "dref", false), (tag "stbl", true),
    (tag "stsd", false), (tag "stts", false), (tag "ctts", false), (tag "stsc", false),
    (tag "stsz", false), (tag "stz2", false), (tag "stco", false), (tag "co64", false),
    (tag "stss", false), (tag "stsh", false), (tag "padb", false), (tag "stdp", false),
    (tag "sdtp", false), (tag "sbgp", false), (tag "sgpd", false), (tag "subs", false),
    (tag "mvex", true), (tag "mehd", false), (tag "trex", false), (tag "ipmc", true),
    (tag "moof", true), (tag "mfhd", false), (tag "traf", true), (tag "trun", false),
    (tag "mfra", true), (tag "tfra", false), (tag "mfro", false), (tag "mdat", false),
    (tag "free", false), (tag "skip", true) ]

/-- `hasChild`: `ok, exist := isobmff[htype]`, true when both are. -/
def hasChild (htype : List Byte) : Bool :=
  match isobmff.lookup htype with
  | some ok => ok
  | none => false

/-- One `fmt.Printf` call: the number of tab characters written before the
bracket, and the atom whose name and size are written, as it stands then. -/
structure Event where
  indent : Nat
  box : atom
  deriving DecidableEq, Repr

/-- What a loop did: the lines written, and the error returned (`none` is `nil`). -/
structure Result where
  events : List Event
  err : Option Error
  deriving DecidableEq, Repr

mutual
/-- `(a *atom) children()`, with fuel: the receiver after the call and the
result.  `none` is "out of fuel". -/
def childrenFuel : Nat → atom → Option (atom × Result)
  | 0, _ => none
  | f + 1, a =>
    if !hasChild a.Header.Name then some (a, ⟨[], none⟩)
    else
      let a := { a with Depth := a.Depth + 1 }
      match childrenLoop f a a.Data 0 with
      | none => none
      | some res => some (a, res)
/-- The `for` loop of `children()`, on the buffer `buf` with the running `pos`.
(`readAtom` never returns a nil atom with a nil error, so the
`child == nil` exit is never taken.) -/
def childrenLoop : Nat → atom → List Byte → Int → Option Result
  | 0, _, _, _ => none
  | f + 1, a, buf, pos =>
    match readAtom buf with
    | .error err => if err = .EOF then some ⟨[], none⟩ else some ⟨[], some err⟩
    | .ok (child, buf) =>
      let child := { child with Depth := a.Depth }
      let pos := wrapInt64 (pos + child.Position)
      let child := { child with Position := wrapInt64 (pos + a.Position) }
      let ev : Event := ⟨a.Depth, child⟩
      match childrenFuel f child with
      | none => none
      | some (_, ⟨evs, some err⟩) => some ⟨ev :: evs, some err⟩
      | some (_, ⟨evs, none⟩) =>
        match childrenLoop f a buf pos with
        | none => none
        | some ⟨evs', err⟩ => some ⟨ev :: (evs ++ evs'), err⟩
end

/-- `(a *atom) children()`: fuel `2 * len(a.Data) + 2` is enough
(`children_total`). -/
def children (a : atom) : Option (atom × Result) :=
  childrenFuel (2 * a.Data.length + 2) a

/-- The `for` loop of `Probe` on the opened file `r`, with fuel. -/
def ProbeFuel : Nat → List Byte → Option Result
  | 0, _ => none
  | f + 1, r =>
    match readAtom r with
    | .error err => if err = .EOF then some ⟨[], none⟩ else some ⟨[], some err⟩
    | .ok (a, r) =>
      let ev : Event := ⟨0, a⟩
      match children a with
      | none => none
      | some (_, ⟨evs, some err⟩) => some ⟨ev :: evs, some err⟩
      | some (_, ⟨evs, none⟩) =>
        match ProbeFuel f r with
        | none => none
        | some ⟨evs', err⟩ => some ⟨ev :: (evs ++ evs'), err⟩

/-- `Probe` on a file that opened and holds the bytes `r`: fuel `len r + 1` is
enough (`Probe_eq_events`). -/
def Probe (r : List Byte) : Option Result :=
  ProbeFuel (r.length + 1) r

/-- Successive `readAtom` calls on one source, up to the first call that
fails: the atoms returned, in order. -/
def readAllFuel : Nat → List Byte → List atom
  | 0, _ => []
  | f + 1, r =>
    match readAtom r with
    | .error _ => []
    | .ok (a, r) => a :: readAllFuel f r

/-- Successive `readAtom` calls on `r`; each successful call takes at least one
byte, so `len r` calls reach the failing one. -/
def readAll (r : List Byte) : List atom :=
  readAllFuel r.length r

/-- The source bytes `0 0 0 16 m o o v 0 0 0 8 m v h d`. -/
def moovMvhd : List Byte :=
  [0, 0, 0, 16] ++ tag "moov" ++ [0, 0, 0, 8] ++ tag "mvhd"

/-- The 8-byte header buffer after `Read`: the first 8 bytes of the source,
followed by the zero bytes of the fresh buffer that were not overwritten. -/
def headerBuf (r : List Byte) : List Byte :=
  r.take 8 ++ List.replicate (8 - r.length) 0

/-- The number of body bytes `readBody` asks for. -/
def bodyLen (size : Nat) : Nat := subUint32 size headerSize

/-! ## Derived notions and test data -/

/-- The source bytes `0 0 0 12 f r e e 1 2 3 4 9`: a 12-byte box and one more byte. -/
def freeBox12 : List Byte := [0, 0, 0, 12] ++ tag "free" ++ [1, 2, 3, 4, 9]

/-- The source bytes `0 0 0 4 f r e e`: a header that declares size 4. -/
def size4 : List Byte := [0, 0, 0, 4] ++ tag "free"

/-- The source bytes `0 0 0 20 f r e e` and ten more bytes. -/
def size20 : List Byte := [0, 0, 0, 20] ++ tag "free" ++ List.replicate 10 7

/-- The `for` loop of `children()` with the fuel that is enough for `buf`. -/
def loop (a : atom) (buf : List Byte) (pos : Int) : Option Result :=
  childrenLoop (2 * buf.length + 1) a buf pos

/-- The lines `children()` writes. -/
def childEvents (a : atom) : List Event :=
  match children a with
  | some (_, res) => res.events
  | none => []

/-- The lines the loop of `children()` writes from `buf` on. -/
def loopEvents (a : atom) (buf : List Byte) (pos : Int) : List Event :=
  match loop a buf pos with
  | some res => res.events
  | none => []

/-- The lines `Probe` writes. -/
def ProbeEvents (r : List Byte) : List Event :=
  match Probe r with
  | some res => res.events
  | none => []

/-- The sum of the `Header.Size` fields of a list of atoms. -/
def sizeSum (cs : List atom) : Int :=
  (cs.map (fun c => (c.Header.Size : Int))).sum

/-- The atoms of the lines the loop of `children()` writes for the children it
reads itself: the lines indented by `a.Depth` tabs. -/
def loopChildren (a : atom) (buf : List Byte) (pos : Int) : List atom :=
  ((loopEvents a buf pos).filter (fun e => e.indent = a.Depth)).map (fun e => e.box)

/-- The children `a.children()` reads from the data of `a`, as each stands when
its line is written: the atoms of the lines indented by `a.Depth + 1` tabs. -/
def directChildren (a : atom) : List atom :=
  ((childEvents a).filter (fun e => e.indent = a.Depth + 1)).map (fun e => e.box)

/-- The top-level atoms of `Probe`, as each stands when its line is written:
the atoms of the lines that are not indented. -/
def topLevel (r : List Byte) : List atom :=
  ((ProbeEvents r).filter (fun e => e.indent = 0)).map (fun e => e.box)

/-- The four bytes of `n` as a big-endian `uint32`. -/
def be32 (n : Nat) : List Byte :=
  [Fin.ofNat (n / 2 ^ 24), Fin.ofNat (n / 2 ^ 16), Fin.ofNat (n / 2 ^ 8), Fin.ofNat n]

/-- The encoding of the box `(tag, payload)`: the size `8 + len payload` as a
big-endian `uint32`, the tag, the payload. -/
def encodeBox (b : List Byte × List Byte) : List Byte :=
  be32 (8 + b.2.length) ++ b.1 ++ b.2

/-- The atom `readAtom` is to return for the box `(tag, payload)`. -/
def boxAtom (b : List Byte × List Byte) : atom :=
  ⟨⟨8 + b.2.length, b.1⟩, b.2, ((8 + b.2.length : Nat) : Int), 0⟩

/-- The atom `Probe` reads from `moovMvhd`. -/
def moovAtom : atom := ⟨⟨16, tag "moov"⟩, [0, 0, 0, 8] ++ tag "mvhd", 16, 0⟩

/-- The bytes of an 8-byte `free` box followed by a 12-byte `mdat` box. -/
def twoBoxes : List Byte :=
  [0, 0, 0, 8] ++ tag "free" ++ [0, 0, 0, 12] ++ tag "mdat" ++ [1, 2, 3, 4]

/-- A top-level `moov` atom whose data is `twoBoxes`. -/
def moovTwo : atom := ⟨⟨28, tag "moov"⟩, twoBoxes, 28, 0⟩

/-- The data of `moovBad`: a child header that declares size 4, then an 8-byte
`free` box. -/
def badPayload : List Byte :=
  [0, 0, 0, 4] ++ tag "mvhd" ++ [0, 0, 0, 8] ++ tag "free"

/-- A top-level `moov` atom whose first child is malformed. -/
def moovBad : atom := ⟨⟨24, tag "moov"⟩, badPayload, 24, 0⟩

/-- A file: the box of `moovBad`, then an 8-byte `free` box. -/
def badFile : List Byte :=
  [0, 0, 0, 24] ++ tag "moov" ++ badPayload ++ [0, 0, 0, 8] ++ tag "free"

/-- The source bytes `0 0 0 8 f r e e`: one 8-byte `free` box. -/
def free8 : List Byte := [0, 0, 0, 8] ++ tag "free"

/-- The children of the box `a`, from left to right: the atoms that successive
`readAtom` calls return on the data of `a`, each one level deeper than `a`, the
`k`-th with the position that follows from `a.Position` and the sizes up to it. -/
def placedChildren (a : atom) : List atom :=
  (readAll a.Data).enum.map (fun kc =>
    { kc.2 with
      Depth := a.Depth + 1,
      Position := wrapInt64
        (a.Position
          + (sizeSum ((readAll a.Data).take kc.1) + (kc.2.Header.Size : Int))) })

/-- The depth-first pre-order of the box tree under the box `a`, `a` included:
the line of `a`, indented by its depth, and then, for each child of `a` from
left to right when the name of `a` is a container tag, the pre-order of the
tree under that child.  The fuel bounds the nesting; `len a.Data` is enough. -/
def preorder : Nat → atom → List Event
  | 0, a => [⟨a.Depth, a⟩]
  | f + 1, a =>
    ⟨a.Depth, a⟩ ::
      (if hasChild a.Header.Name then (placedChildren a).flatMap (preorder f) else [])

/-- A `moov` atom whose data is the four bytes `0 0 0 8`. -/
def moovShort : atom := ⟨⟨12, tag "moov"⟩, [0, 0, 0, 8], 12, 0⟩

/-- A `trak` atom at depth 1 that holds one 8-byte `tkhd` box. -/
def trakAtom : atom := ⟨⟨16, tag "trak"⟩, [0, 0, 0, 8] ++ tag "tkhd", 40, 1⟩

/-- `atom` with `Depth` as the Go `int` of the source (64 bits, two's
complement): the receiver `children()` can be given, whatever its depth. -/
structure atomInt where
  Header : header
  Data : List Byte
  Position : Int
  Depth : Int
  deriving DecidableEq, Repr

/-- How a call ends: it returns a value, or it panics. -/
inductive Run (α : Type) where
  | panic
  | ret (x : α)
  deriving DecidableEq, Repr

/-- One `fmt.Printf` call of `children()` on an `atomInt`: the tabs written and
the child whose name and size are written. -/
structure EventInt where
  indent : Nat
  box : atomInt
  deriving DecidableEq, Repr

/-- The lines written and the error returned, for `atomInt`. -/
structure ResultInt where
  events : List EventInt
  err : Option Error
  deriving DecidableEq, Repr

mutual
/-- `(a *atom) children()` with `Depth` as an `int`, with fuel.  `a.Depth++`
wraps around, and `strings.Repeat("\t", a.Depth)` panics on a negative count.
A panic is recorded without the lines written before it. -/
def childrenIntFuel : Nat → atomInt → Option (Run (atomInt × ResultInt))
  | 0, _ => none
  | f + 1, a =>
    if !hasChild a.Header.Name then some (.ret (a, ⟨[], none⟩))
    else
      let a := { a with Depth := wrapInt64 (a.Depth + 1) }
      match childrenIntLoop f a a.Data 0 with
      | none => none
      | some .panic => some .panic
      | some (.ret res) => some (.ret (a, res))
/-- The `for` loop of `children()` with `Depth` as an `int`. -/
def childrenIntLoop : Nat → atomInt → List Byte → Int → Option (Run ResultInt)
  | 0, _, _, _ => none
  | f + 1, a, buf, pos =>
    match readAtom buf with
    | .error err =>
      if err = .EOF then some (.ret ⟨[], none⟩) else some (.ret ⟨[], some err⟩)
    | .ok (child, buf) =>
      let pos := wrapInt64 (pos + child.Position)
      let child : atomInt :=
        ⟨child.Header, child.Data, wrapInt64 (pos + a.Position), a.Depth⟩
      if a.Depth < 0 then some .panic
      else
        let ev : EventInt := ⟨a.Depth.toNat, child⟩
        match childrenIntFuel f child with
        | none => none
        | some .panic => some .panic
        | some (.ret (_, ⟨evs, some err⟩)) => some (.ret ⟨ev :: evs, some err⟩)
        | some (.ret (_, ⟨evs, none⟩)) =>
          match childrenIntLoop f a buf pos with
          | none => none
          | some .panic => some .panic
          | some (.ret ⟨evs', err⟩) => some (.ret ⟨ev :: (evs ++ evs'), err⟩)
end

/-- `(a *atom) children()` with `Depth` as an `int`, with the fuel of `children`. -/
def childrenInt (a : atomInt) : Option (Run (atomInt × ResultInt)) :=
  childrenIntFuel (2 * a.Data.length + 2) a

/-- An atom at a natural depth, as an `atomInt`. -/
def liftAtom (a : atom) : atomInt := ⟨a.Header, a.Data, a.Position, (a.Depth : Int)⟩

/-- A line, with its atom as an `atomInt`. -/
def liftEvent (e : Event) : EventInt := ⟨e.indent, liftAtom e.box⟩

/-- A result, with its atoms as `atomInt`s. -/
def liftResult (r : Result) : ResultInt := ⟨r.events.map liftEvent, r.err⟩

/-- A `moov` atom at depth `-2` that holds one 8-byte `mvhd` box. -/
def moovDeep : atomInt := ⟨⟨16, tag "moov"⟩, [0, 0, 0, 8] ++ tag "mvhd", 16, -2⟩

/-- A `moov` atom at depth `-1` that holds one 8-byte `mvhd` box. -/
def moovMinusOne : atomInt := ⟨⟨16, tag "moov"⟩, [0, 0, 0, 8] ++ tag "mvhd", 16, -1⟩

/-! ## The box reader -/

theorem subUint32_eq_mod (x y : Nat) (hx : x < 2 ^ 32) (hy : y < 2 ^ 32) :
    subUint32 x y = (x + 2 ^ 32 - y) % 2 ^ 32 := by
  unfold subUint32
  split <;> omega

theorem uint32BE_lt (b : List Byte) : uint32BE b < 2 ^ 32 := by
  unfold uint32BE
  have h0 := (b.getD 0 0).isLt
  have h1 := (b.getD 1 0).isLt
  have h2 := (b.getD 2 0).isLt
  have h3 := (b.getD 3 0).isLt
  omega

theorem readHeader_nil : readHeader [] = .error .EOF := by
  simp [readHeader, Read, headerSize]

theorem readHeader_cons (r : List Byte) (hne : r ≠ []) :
    readHeader r
      = .ok (⟨uint32BE ((headerBuf r).take 4), ((headerBuf r).drop 4).take 4⟩, r.drop 8) := by
  have hbuf : r.take (min 8 r.length) ++ (List.replicate 8 (0 : Byte)).drop (min 8 r.length)
      = headerBuf r := by
    unfold headerBuf
    rcases Nat.le_total 8 r.length with h | h
    · rw [Nat.min_eq_left h, List.drop_replicate, Nat.sub_self, Nat.sub_eq_zero_of_le h]
    · rw [Nat.min_eq_right h, List.take_of_length_le (Nat.le_refl _),
        List.take_of_length_le h, List.drop_replicate]
  have hdrop : r.drop (min 8 r.length) = r.drop 8 := by
    rcases Nat.le_total 8 r.length with h | h
    · rw [Nat.min_eq_left h]
    · rw [Nat.min_eq_right h, List.drop_of_length_le (Nat.le_refl _), List.drop_of_length_le h]
  simp only [readHeader, Read, headerSize, hne, if_false, List.length_replicate]
  rw [hbuf, hdrop]

theorem headerBuf_full (r : List Byte) (h : 8 ≤ r.length) : headerBuf r = r.take 8 := by
  simp [headerBuf, Nat.sub_eq_zero_of_le h]

theorem readBody_eq (h : header) (r : List Byte) :
    readBody h r
      = if bodyLen h.Size ≤ r.length
        then .ok (r.take (bodyLen h.Size), (h.Size : Int), r.drop (bodyLen h.Size))
        else .error .EOF := by
  unfold readBody CopyN bodyLen
  generalize subUint32 h.Size headerSize = n
  by_cases hle : n ≤ r.length
  · have hn : (r.take n).length = n := by rw [List.length_take]; omega
    simp only [hn, hle, if_true]
  · have hn : ¬ (r.take n).length = n := by rw [List.length_take]; omega
    simp only [hn, hle, if_false]

/-- What `readAtom` does on every source. -/
theorem readAtom_eq (r : List Byte) :
    readAtom r
      = if r = [] then .error .EOF
        else if bodyLen (uint32BE ((headerBuf r).take 4)) ≤ (r.drop 8).length
        then .ok (⟨⟨uint32BE ((headerBuf r).take 4), ((headerBuf r).drop 4).take 4⟩,
                    (r.drop 8).take (bodyLen (uint32BE ((headerBuf r).take 4))),
                    (uint32BE ((headerBuf r).take 4) : Int), 0⟩,
                  (r.drop 8).drop (bodyLen (uint32BE ((headerBuf r).take 4))))
        else .error .EOF := by
  by_cases hne : r = []
  · subst hne
    simp [readAtom, readHeader_nil]
  · by_cases hle : bodyLen (uint32BE ((headerBuf r).take 4)) ≤ (r.drop 8).length
    · simp only [readAtom, readHeader_cons r hne, readBody_eq, hne, hle, if_false, if_true]
    · simp only [readAtom, readHeader_cons r hne, readBody_eq, hne, hle, if_false]

/-- The only error `readAtom` returns on a byte list is `io.EOF`. -/
theorem readAtom_error (r : List Byte) (e : Error) (h : readAtom r = .error e) : e = .EOF := by
  rw [readAtom_eq] at h
  split at h
  · cases h; rfl
  · split at h
    · cases h
    · cases h; rfl

/-- A successful `readAtom` takes at least one byte, and the body it returns
and the bytes it leaves together are fewer than the bytes it was given. -/
theorem readAtom_length (r r' : List Byte) (a : atom) (h : readAtom r = .ok (a, r')) :
    a.Data.length + r'.length + 1 ≤ r.length := by
  rw [readAtom_eq] at h
  split at h
  · cases h
  · rename_i hne
    split at h
    · rename_i hle
      cases h
      have hpos : 0 < r.length := List.length_pos.mpr hne
      simp only [List.length_take, List.length_drop] at hle ⊢
      omega
    · cases h

theorem bodyLen_of_ge (size : Nat) (h : 8 ≤ size) : bodyLen size = size - 8 := by
  simp [bodyLen, subUint32, headerSize, h]

theorem bodyLen_of_lt (size : Nat) (h : size < 8) : bodyLen size = size + 2 ^ 32 - 8 := by
  have h' : ¬ 8 ≤ size := by omega
  simp only [bodyLen, subUint32, headerSize, h', if_false]

/-- On a source with a whole header, the header bytes are the first eight. -/
theorem headerBuf_size (r : List Byte) (h : 8 ≤ r.length) :
    (headerBuf r).take 4 = r.take 4 ∧ ((headerBuf r).drop 4).take 4 = (r.drop 4).take 4 := by
  rw [headerBuf_full r h]
  constructor
  · rw [List.take_take]; rfl
  · rw [List.drop_take, List.take_take]; rfl

/-- On a source that holds a whole header declaring `S ≥ 8` and at least `S`
bytes, `readAtom` returns the first `S` bytes as an atom and leaves the rest. -/
theorem readAtom_whole (r : List Byte) (h8 : 8 ≤ r.length)
    (hS : 8 ≤ uint32BE (r.take 4)) (hlen : uint32BE (r.take 4) ≤ r.length) :
    readAtom r
      = .ok (⟨⟨uint32BE (r.take 4), (r.drop 4).take 4⟩,
              (r.drop 8).take (uint32BE (r.take 4) - 8), (uint32BE (r.take 4) : Int), 0⟩,
             r.drop (uint32BE (r.take 4))) := by
  have hne : r ≠ [] := by
    intro h0; rw [h0] at h8; simp at h8
  obtain ⟨hsz, hnm⟩ := headerBuf_size r h8
  have hle : uint32BE (r.take 4) - 8 ≤ (r.drop 8).length := by
    rw [List.length_drop]; omega
  have hdrop : (r.drop 8).drop (uint32BE (r.take 4) - 8) = r.drop (uint32BE (r.take 4)) := by
    rw [List.drop_drop]; congr 1; omega
  rw [readAtom_eq, if_neg hne, hsz, hnm, bodyLen_of_ge _ hS, if_pos hle, hdrop]

/-- A failing `readAtom` ends the loop of `Probe` with no line written and a
nil error. -/
theorem Probe_of_error (r : List Byte) (e : Error) (h : readAtom r = .error e) :
    Probe r = some ⟨[], none⟩ := by
  have he : e = .EOF := readAtom_error r e h
  subst he
  simp only [Probe, ProbeFuel, h, if_true]

/-! ## Claims about the box reader -/

/-- C1: on a source that holds a whole header declaring a size `S ≥ 8` and at
least `S` bytes, `readAtom` returns the atom with `Size = S`, `Name` the bytes
4..7, `Data` the bytes 8..S-1 (and `Position = S`, `Depth = 0`), and leaves the
source at its byte `S`. -/
theorem readAtom_box (r : List Byte) (h8 : 8 ≤ r.length)
    (hS : 8 ≤ uint32BE (r.take 4)) (hlen : uint32BE (r.take 4) ≤ r.length) :
    readAtom r
      = .ok (⟨⟨uint32BE (r.take 4), (r.drop 4).take 4⟩,
              (r.drop 8).take (uint32BE (r.take 4) - 8), (uint32BE (r.take 4) : Int), 0⟩,
             r.drop (uint32BE (r.take 4))) :=
  readAtom_whole r h8 hS hlen

theorem readAtom_box_witness :
    readAtom freeBox12 = .ok (⟨⟨12, tag "free"⟩, [1, 2, 3, 4], 12, 0⟩, [9]) :=
  (readAtom_box freeBox12 (by decide) (by decide) (by decide)).trans (by decide)

/-- C2, as the code has it: a whole header that declares a size `S < 8` makes
`readBody` ask for `S + 2^32 - 8` bytes.  A source shorter than `2^32 + S`
bytes gives `io.EOF`, the end-of-stream value, and `Probe` writes nothing and
returns nil; a longer source gives a box with those `S + 2^32 - 8` body bytes. -/
theorem readAtom_size_below_header (r : List Byte) (h8 : 8 ≤ r.length)
    (hS : uint32BE (r.take 4) < 8) :
    (r.length < 2 ^ 32 + uint32BE (r.take 4) →
        readAtom r = .error .EOF ∧ Probe r = some ⟨[], none⟩) ∧
    (2 ^ 32 + uint32BE (r.take 4) ≤ r.length →
        readAtom r
          = .ok (⟨⟨uint32BE (r.take 4), (r.drop 4).take 4⟩,
                  (r.drop 8).take (uint32BE (r.take 4) + 2 ^ 32 - 8),
                  (uint32BE (r.take 4) : Int), 0⟩,
                 r.drop (2 ^ 32 + uint32BE (r.take 4)))) := by
  have hne : r ≠ [] := by
    intro h0; rw [h0] at h8; simp at h8
  obtain ⟨hsz, hnm⟩ := headerBuf_size r h8
  constructor
  · intro hlen
    have hle : ¬ uint32BE (r.take 4) + 2 ^ 32 - 8 ≤ (r.drop 8).length := by
      rw [List.length_drop]; omega
    have hread : readAtom r = .error .EOF := by
      rw [readAtom_eq, if_neg hne, hsz, bodyLen_of_lt _ hS, if_neg hle]
    exact ⟨hread, Probe_of_error r _ hread⟩
  · intro hlen
    have hle : uint32BE (r.take 4) + 2 ^ 32 - 8 ≤ (r.drop 8).length := by
      rw [List.length_drop]; omega
    have hdrop : (r.drop 8).drop (uint32BE (r.take 4) + 2 ^ 32 - 8)
        = r.drop (2 ^ 32 + uint32BE (r.take 4)) := by
      rw [List.drop_drop]; congr 1; omega
    rw [readAtom_eq, if_neg hne, hsz, hnm, bodyLen_of_lt _ hS, if_pos hle, hdrop]

theorem readAtom_size_below_header_witness :
    readAtom size4 = .error .EOF ∧ Probe size4 = some ⟨[], none⟩ :=
  (readAtom_size_below_header size4 (by decide) (by decide)).1 (by decide)

/-- C2 fails at the header `0 0 0 4 f r e e`: `readAtom` returns the error it
returns on the empty source, and `Probe` returns nil. -/
theorem readAtom_size4_is_eof :
    readAtom size4 = readAtom [] ∧ Probe size4 = some ⟨[], none⟩ ∧
    ¬ ((∃ e, readAtom size4 = .error e ∧ e ≠ .EOF) ∧
        ∃ evs e, Probe size4 = some ⟨evs, some e⟩) := by
  refine ⟨by decide, by decide, ?_⟩
  rintro ⟨⟨e, he, hne⟩, _⟩
  exact hne (readAtom_error _ _ he)

/-- C3, as the code has it: a whole header that declares `S ≥ 8` on a source
of fewer than `S` bytes makes `readAtom` return `io.EOF`, the very value it
returns on the empty source, so the loop of `Probe` ends normally: nothing is
written and nil is returned. -/
theorem readAtom_truncated_body (r : List Byte) (h8 : 8 ≤ r.length)
    (hS : 8 ≤ uint32BE (r.take 4)) (hlen : r.length < uint32BE (r.take 4)) :
    readAtom r = .error .EOF ∧ readAtom r = readAtom [] ∧ Probe r = some ⟨[], none⟩ := by
  have hne : r ≠ [] := by
    intro h0; rw [h0] at h8; simp at h8
  obtain ⟨hsz, _⟩ := headerBuf_size r h8
  have hle : ¬ uint32BE (r.take 4) - 8 ≤ (r.drop 8).length := by
    rw [List.length_drop]; omega
  have hread : readAtom r = .error .EOF := by
    rw [readAtom_eq, if_neg hne, hsz, bodyLen_of_ge _ hS, if_neg hle]
  refine ⟨hread, ?_, Probe_of_error r _ hread⟩
  rw [hread, readAtom_eq, if_pos rfl]

theorem readAtom_truncated_body_witness :
    readAtom size20 = .error .EOF ∧ readAtom size20 = readAtom [] ∧
      Probe size20 = some ⟨[], none⟩ :=
  readAtom_truncated_body size20 (by decide) (by decide) (by decide)

/-- C3 fails at the header `0 0 0 20 f r e e` followed by ten bytes: the error
is the one of the empty source, and `Probe` returns nil. -/
theorem readAtom_size20_is_eof :
    readAtom size20 = readAtom [] ∧ Probe size20 = some ⟨[], none⟩ ∧
    ¬ (readAtom size20 ≠ readAtom [] ∧ ∃ evs e, Probe size20 = some ⟨evs, some e⟩) := by
  refine ⟨by decide, by decide, ?_⟩
  rintro ⟨h, _⟩
  exact h (by decide)

/-- C4, as the code has it: with 1 to 7 bytes left `readHeader` succeeds on the
zero-filled rest of its buffer and no body byte is left.  `readAtom` returns a
box (size 8, no data, the source used up) when the padded size field is 8, and
`io.EOF` for every other size; it returns no other error. -/
theorem readAtom_short_header (r : List Byte) (h1 : 1 ≤ r.length) (h7 : r.length ≤ 7) :
    (uint32BE ((headerBuf r).take 4) = 8 →
        readAtom r = .ok (⟨⟨8, ((headerBuf r).drop 4).take 4⟩, [], 8, 0⟩, [])) ∧
    (uint32BE ((headerBuf r).take 4) ≠ 8 → readAtom r = .error .EOF) := by
  have hne : r ≠ [] := by
    intro h0; rw [h0] at h1; simp at h1
  have hd : r.drop 8 = [] := List.drop_of_length_le (by omega)
  have hlt := uint32BE_lt ((headerBuf r).take 4)
  constructor
  · intro h
    rw [readAtom_eq, if_neg hne, h, hd, bodyLen_of_ge 8 (Nat.le_refl 8)]
    rfl
  · intro h
    have hpos : ¬ bodyLen (uint32BE ((headerBuf r).take 4)) ≤ ([] : List Byte).length := by
      rcases Nat.lt_or_ge (uint32BE ((headerBuf r).take 4)) 8 with hlt8 | hge8
      · rw [bodyLen_of_lt _ hlt8]; simp only [List.length_nil]; omega
      · rw [bodyLen_of_ge _ hge8]; simp only [List.length_nil]; omega
    rw [readAtom_eq, if_neg hne, hd, if_neg hpos]

theorem readAtom_short_header_witness :
    readAtom [0, 0, 0, 8, 109] = .ok (⟨⟨8, [109, 0, 0, 0]⟩, [], 8, 0⟩, []) :=
  ((readAtom_short_header [0, 0, 0, 8, 109] (by decide) (by decide)).1 (by decide)).trans
    (by decide)

/-- C4 fails at the four bytes `0 0 0 8`, where `readAtom` returns a box, and
at the single byte `1`, where it returns `io.EOF`. -/
theorem readAtom_four_bytes_is_box :
    readAtom [0, 0, 0, 8] = .ok (⟨⟨8, [0, 0, 0, 0]⟩, [], 8, 0⟩, []) ∧
    readAtom [1] = .error .EOF ∧
    ¬ (∃ e, readAtom [0, 0, 0, 8] = .error e ∧ e ≠ .EOF) := by
  refine ⟨by decide, by decide, ?_⟩
  rintro ⟨e, he, hne⟩
  exact hne (readAtom_error _ _ he)

/-! ## The classification table -/

theorem lookup_mem (l : List (List Byte × Bool)) (t : List Byte) (v : Bool)
    (h : l.lookup t = some v) : (t, v) ∈ l := by
  induction l with
  | nil => simp [List.lookup] at h
  | cons p es ih =>
    obtain ⟨k, b⟩ := p
    by_cases hk : t = k
    · subst hk
      simp only [List.lookup, beq_self_eq_true, Option.some.injEq] at h
      subst h
      exact List.mem_cons_self _ _
    · have hbeq : (t == k) = false := by simpa using hk
      simp only [List.lookup, hbeq] at h
      exact List.mem_cons_of_mem _ (ih h)

theorem lookup_not_mem (l : List (List Byte × Bool)) (t : List Byte)
    (h : t ∉ l.map Prod.fst) : l.lookup t = none := by
  induction l with
  | nil => rfl
  | cons p es ih =>
    obtain ⟨k, b⟩ := p
    simp only [List.map_cons, List.mem_cons, not_or] at h
    have hbeq : (t == k) = false := by simpa using h.1
    simp only [List.lookup, hbeq]
    exact ih h.2

/-- C7: `hasChild t` is true exactly for the twelve container tags; it is false
for the 38 leaf tags of the table and for every tag that is not a key of it. -/
theorem hasChild_iff (t : List Byte) :
    (hasChild t = true ↔
      t ∈ [tag "moov", tag "trak", tag "mdia", tag "minf", tag "dinf", tag "stbl",
           tag "mvex", tag "ipmc", tag "moof", tag "traf", tag "mfra", tag "skip"]) ∧
    (t ∈ [tag "ftyp", tag "pdin", tag "mvhd", tag "tkhd", tag "tref", tag "edts",
          tag "elst", tag "mdhd", tag "hdlr", tag "vmhd", tag "smhd", tag "hmhd",
          tag "nmhd", tag "dref", tag "stsd", tag "stts", tag "ctts", tag "stsc",
          tag "stsz", tag "stz2", tag "stco", tag "co64", tag "stss", tag "stsh",
          tag "padb", tag "stdp", tag "sdtp", tag "sbgp", tag "sgpd", tag "subs",
          tag "mehd", tag "trex", tag "mfhd", tag "trun", tag "tfra", tag "mfro",
          tag "mdat", tag "free"] → hasChild t = false) ∧
    (t ∉ isobmff.map Prod.fst → hasChild t = false) := by
  refine ⟨⟨?_, ?_⟩, ?_, ?_⟩
  · intro h
    have hl : isobmff.lookup t = some true := by
      unfold hasChild at h
      split at h
      · rename_i ok hok; rw [hok, h]
      · cases h
    have hmem : t ∈ (isobmff.filter (fun p => p.2)).map Prod.fst :=
      List.mem_map.mpr ⟨(t, true), List.mem_filter.mpr ⟨lookup_mem _ _ _ hl, rfl⟩, rfl⟩
    have hlist : (isobmff.filter (fun p => p.2)).map Prod.fst
        = [tag "moov", tag "trak", tag "mdia", tag "minf", tag "dinf", tag "stbl",
           tag "mvex", tag "ipmc", tag "moof", tag "traf", tag "mfra", tag "skip"] := by
      decide
    rw [hlist] at hmem
    exact hmem
  · revert t
    decide
  · revert t
    decide
  · intro h
    unfold hasChild
    rw [lookup_not_mem _ _ h]

/-! ## The tree walker -/

/-- C8: on an atom whose name is not a container tag `children()` writes
nothing, returns nil and leaves the atom as it was, whatever its data holds. -/
theorem children_leaf (a : atom) (h : hasChild a.Header.Name = false) :
    children a = some (a, ⟨[], none⟩) := by
  simp only [children, childrenFuel, h, Bool.not_false, if_true]

theorem children_leaf_witness :
    children ⟨⟨16, tag "mdat"⟩, [0, 0, 0, 8] ++ tag "mvhd", 16, 0⟩
        = some (⟨⟨16, tag "mdat"⟩, [0, 0, 0, 8] ++ tag "mvhd", 16, 0⟩, ⟨[], none⟩) ∧
      children ⟨⟨16, tag "abcd"⟩, [0, 0, 0, 8] ++ tag "mvhd", 16, 0⟩
        = some (⟨⟨16, tag "abcd"⟩, [0, 0, 0, 8] ++ tag "mvhd", 16, 0⟩, ⟨[], none⟩) :=
  ⟨children_leaf _ (by decide), children_leaf _ (by decide)⟩

/-- More fuel does not change a result that was reached. -/
theorem fuel_mono (f : Nat) :
    (∀ a x, childrenFuel f a = some x → ∀ g, f ≤ g → childrenFuel g a = some x) ∧
    (∀ a buf pos x, childrenLoop f a buf pos = some x →
      ∀ g, f ≤ g → childrenLoop g a buf pos = some x) := by
  induction f with
  | zero =>
    constructor
    · intro a x h; simp only [childrenFuel] at h; cases h
    · intro a buf pos x h; simp only [childrenLoop] at h; cases h
  | succ f ih =>
    obtain ⟨ihc, ihl⟩ := ih
    constructor
    · intro a x h g hg
      obtain ⟨g, rfl⟩ : ∃ g', g = g' + 1 := ⟨g - 1, by omega⟩
      have hfg : f ≤ g := by omega
      simp only [childrenFuel] at h ⊢
      split at h
      · rename_i hleaf
        rw [if_pos hleaf]; exact h
      · rename_i hleaf
        rw [if_neg hleaf]
        split at h
        · cases h
        · rename_i res hres
          rw [ihl _ _ _ _ hres g hfg]
          exact h
    · intro a buf pos x h g hg
      obtain ⟨g, rfl⟩ : ∃ g', g = g' + 1 := ⟨g - 1, by omega⟩
      have hfg : f ≤ g := by omega
      simp only [childrenLoop] at h ⊢
      split at h
      · rename_i err herr
        exact h
      · rename_i child buf' hok
        split at h
        · cases h
        · rename_i a2 evs err hch
          rw [ihc _ _ hch g hfg]
          exact h
        · rename_i a2 evs hch
          rw [ihc _ _ hch g hfg]
          simp only
          split at h
          · cases h
          · rename_i evs' err hl
            rw [ihl _ _ _ _ hl g hfg]
            exact h

/-- With the fuel of `children`, the walker returns, and it returns nil. -/
theorem fuel_enough (f : Nat) :
    (∀ a, 2 * a.Data.length + 2 ≤ f → ∃ a' evs, childrenFuel f a = some (a', ⟨evs, none⟩)) ∧
    (∀ a buf pos, 2 * buf.length + 1 ≤ f →
      ∃ evs, childrenLoop f a buf pos = some ⟨evs, none⟩) := by
  induction f with
  | zero =>
    constructor
    · intro a h; omega
    · intro a buf pos h; omega
  | succ f ih =>
    obtain ⟨ihc, ihl⟩ := ih
    constructor
    · intro a h
      simp only [childrenFuel]
      split
      · exact ⟨_, _, rfl⟩
      · obtain ⟨evs, hevs⟩ := ihl { a with Depth := a.Depth + 1 } a.Data 0 (by omega)
        rw [hevs]
        exact ⟨_, _, rfl⟩
    · intro a buf pos h
      simp only [childrenLoop]
      split
      · rename_i err herr
        rw [readAtom_error _ _ herr]
        exact ⟨_, rfl⟩
      · rename_i child buf' hok
        have hlen := readAtom_length _ _ _ hok
        obtain ⟨c', evs, hc⟩ := ihc
          { child with Depth := a.Depth,
                       Position := wrapInt64 (wrapInt64 (pos + child.Position) + a.Position) }
          (by simp only; omega)
        obtain ⟨evs', hl⟩ := ihl a buf' (wrapInt64 (pos + child.Position)) (by omega)
        rw [hc, hl]
        exact ⟨_, rfl⟩

theorem childrenFuel_canon (a : atom) (f : Nat) (h : 2 * a.Data.length + 2 ≤ f) :
    childrenFuel f a = children a := by
  obtain ⟨a', evs, hc⟩ := (fuel_enough _).1 a (Nat.le_refl _)
  rw [children, hc]
  exact (fuel_mono _).1 a _ hc f h

theorem childrenLoop_canon (a : atom) (buf : List Byte) (pos : Int) (f : Nat)
    (h : 2 * buf.length + 1 ≤ f) : childrenLoop f a buf pos = loop a buf pos := by
  obtain ⟨evs, hl⟩ := (fuel_enough _).2 a buf pos (Nat.le_refl _)
  rw [loop, hl]
  exact (fuel_mono _).2 a buf pos _ hl f h

/-- `children()` always returns, with a nil error. -/
theorem children_total (a : atom) : ∃ a' evs, children a = some (a', ⟨evs, none⟩) :=
  (fuel_enough _).1 a (Nat.le_refl _)

theorem loop_total (a : atom) (buf : List Byte) (pos : Int) :
    ∃ evs, loop a buf pos = some ⟨evs, none⟩ :=
  (fuel_enough _).2 a buf pos (Nat.le_refl _)

theorem children_eq_events (a : atom) :
    children a
      = some (if hasChild a.Header.Name then { a with Depth := a.Depth + 1 } else a,
              ⟨childEvents a, none⟩) := by
  obtain ⟨a', evs, hc⟩ := children_total a
  have hev : childEvents a = evs := by simp only [childEvents, hc]
  rw [hev, hc]
  simp only [children, childrenFuel] at hc
  split at hc
  · rename_i hleaf
    have : hasChild a.Header.Name = false := by simpa using hleaf
    simp only [this] at hc ⊢
    simp only [Option.some.injEq, Prod.mk.injEq] at hc
    rw [← hc.1]
    rfl
  · rename_i hleaf
    have : hasChild a.Header.Name = true := by simpa using hleaf
    split at hc
    · cases hc
    · simp only [Option.some.injEq, Prod.mk.injEq] at hc
      rw [← hc.1, this]
      rfl

theorem loop_eq_events (a : atom) (buf : List Byte) (pos : Int) :
    loop a buf pos = some ⟨loopEvents a buf pos, none⟩ := by
  obtain ⟨evs, hl⟩ := loop_total a buf pos
  simp only [loopEvents, hl]

theorem childEvents_leaf (a : atom) (h : hasChild a.Header.Name = false) :
    childEvents a = [] := by
  simp only [childEvents, children, childrenFuel, h, Bool.not_false, if_true]

theorem childEvents_container (a : atom) (h : hasChild a.Header.Name = true) :
    childEvents a = loopEvents { a with Depth := a.Depth + 1 } a.Data 0 := by
  obtain ⟨evs, hl⟩ := loop_total { a with Depth := a.Depth + 1 } a.Data 0
  have hl' := hl
  simp only [loop] at hl'
  simp only [loopEvents, hl]
  simp only [childEvents, children, childrenFuel, h, Bool.not_true, if_false, hl',
    Bool.false_eq_true]

theorem loopEvents_error (a : atom) (buf : List Byte) (pos : Int) (e : Error)
    (h : readAtom buf = .error e) : loopEvents a buf pos = [] := by
  have he := readAtom_error _ _ h
  subst he
  simp only [loopEvents, loop, childrenLoop, h, if_true]

/-- One turn of the loop of `children()`: the line of the child, the lines below
it, and the lines of the later siblings. -/
theorem loopEvents_ok (a : atom) (buf buf' : List Byte) (pos : Int) (child : atom)
    (h : readAtom buf = .ok (child, buf')) :
    loopEvents a buf pos
      = ⟨a.Depth, { child with
            Depth := a.Depth,
            Position := wrapInt64 (wrapInt64 (pos + child.Position) + a.Position) }⟩
        :: (childEvents { child with
              Depth := a.Depth,
              Position := wrapInt64 (wrapInt64 (pos + child.Position) + a.Position) }
            ++ loopEvents a buf' (wrapInt64 (pos + child.Position))) := by
  have hlen := readAtom_length _ _ _ h
  have h1 := childrenFuel_canon
    { child with Depth := a.Depth,
                 Position := wrapInt64 (wrapInt64 (pos + child.Position) + a.Position) }
    (2 * buf.length) (by simp only; omega)
  have h2 := childrenLoop_canon a buf' (wrapInt64 (pos + child.Position)) (2 * buf.length)
    (by omega)
  rw [children_eq_events] at h1
  rw [loop_eq_events] at h2
  simp only [loopEvents, loop, childrenLoop, h, h1, h2]

theorem ProbeFuel_total (f : Nat) :
    ∀ r : List Byte, r.length < f →
      ∃ evs, ProbeFuel f r = some ⟨evs, none⟩ ∧
        ∀ g, r.length < g → ProbeFuel g r = some ⟨evs, none⟩ := by
  induction f with
  | zero => intro r h; omega
  | succ f ih =>
    intro r h
    cases hr : readAtom r with
    | error e =>
      have he := readAtom_error _ _ hr
      subst he
      refine ⟨[], by simp only [ProbeFuel, hr, if_true], ?_⟩
      intro g hg
      obtain ⟨g, rfl⟩ : ∃ g', g = g' + 1 := ⟨g - 1, by omega⟩
      simp only [ProbeFuel, hr, if_true]
    | ok p =>
      obtain ⟨a, r'⟩ := p
      have hlen := readAtom_length _ _ _ hr
      obtain ⟨evs', h1, h2⟩ := ih r' (by omega)
      refine ⟨⟨0, a⟩ :: (childEvents a ++ evs'), ?_, ?_⟩
      · simp only [ProbeFuel, hr, children_eq_events, h1]
      · intro g hg
        obtain ⟨g, rfl⟩ : ∃ g', g = g' + 1 := ⟨g - 1, by omega⟩
        simp only [ProbeFuel, hr, children_eq_events, h2 g (by omega)]

/-- `Probe` always returns, with a nil error. -/
theorem Probe_eq_events (r : List Byte) : Probe r = some ⟨ProbeEvents r, none⟩ := by
  obtain ⟨evs, h, _⟩ := ProbeFuel_total (r.length + 1) r (Nat.lt_succ_self _)
  simp only [ProbeEvents, Probe, h]

theorem ProbeEvents_error (r : List Byte) (e : Error) (h : readAtom r = .error e) :
    ProbeEvents r = [] := by
  simp only [ProbeEvents, Probe_of_error r e h]

/-- One turn of the loop of `Probe`: the line of the atom, the lines below it,
and the lines of the rest of the file. -/
theorem ProbeEvents_ok (r r' : List Byte) (a : atom) (h : readAtom r = .ok (a, r')) :
    ProbeEvents r = ⟨0, a⟩ :: (childEvents a ++ ProbeEvents r') := by
  have hlen := readAtom_length _ _ _ h
  obtain ⟨evs, _, h2⟩ := ProbeFuel_total (r'.length + 1) r' (Nat.lt_succ_self _)
  have h3 : ProbeFuel r.length r' = some ⟨evs, none⟩ := h2 _ (by omega)
  have h4 : ProbeEvents r' = evs := by
    simp only [ProbeEvents, Probe, h2 _ (Nat.lt_succ_self _)]
  have h5 : Probe r = some ⟨⟨0, a⟩ :: (childEvents a ++ evs), none⟩ := by
    simp only [Probe, ProbeFuel, h, children_eq_events, h3]
  rw [h4]
  unfold ProbeEvents
  rw [h5]

theorem readAtom_nil : readAtom [] = .error .EOF := by
  rw [readAtom_eq, if_pos rfl]

theorem readAllFuel_indep (f : Nat) :
    ∀ (r : List Byte) (g : Nat), r.length ≤ f → r.length ≤ g →
      readAllFuel f r = readAllFuel g r := by
  induction f with
  | zero =>
    intro r g hf _
    have hr : r = [] := List.length_eq_zero.mp (by omega)
    subst hr
    cases g with
    | zero => rfl
    | succ g => simp only [readAllFuel, readAtom_nil]
  | succ f ih =>
    intro r g hf hg
    cases hr : readAtom r with
    | error e =>
      cases g with
      | zero => simp only [readAllFuel, hr]
      | succ g => simp only [readAllFuel, hr]
    | ok p =>
      obtain ⟨a, r'⟩ := p
      have hlen := readAtom_length _ _ _ hr
      cases g with
      | zero => omega
      | succ g =>
        simp only [readAllFuel, hr]
        rw [ih r' g (by omega) (by omega)]

theorem readAll_error (r : List Byte) (e : Error) (h : readAtom r = .error e) :
    readAll r = [] := by
  rw [readAll, readAllFuel_indep _ r (r.length + 1) (Nat.le_refl _) (Nat.le_succ _)]
  simp only [readAllFuel, h]

theorem readAll_ok (r r' : List Byte) (a : atom) (h : readAtom r = .ok (a, r')) :
    readAll r = a :: readAll r' := by
  have hlen := readAtom_length _ _ _ h
  rw [readAll, readAllFuel_indep _ r (r.length + 1) (Nat.le_refl _) (Nat.le_succ _)]
  simp only [readAllFuel, h]
  rw [readAll, readAllFuel_indep _ r' r'.length (by omega) (Nat.le_refl _)]

/-- An atom that `readAtom` returns has `Position = Header.Size` and `Depth = 0`. -/
theorem readAtom_fresh (r r' : List Byte) (a : atom) (h : readAtom r = .ok (a, r')) :
    a.Position = (a.Header.Size : Int) ∧ a.Depth = 0 := by
  rw [readAtom_eq] at h
  split at h
  · cases h
  · split at h
    · cases h; exact ⟨rfl, rfl⟩
    · cases h

theorem wrapInt64_add (x y : Int) : wrapInt64 (wrapInt64 x + y) = wrapInt64 (x + y) := by
  unfold wrapInt64
  omega

/-- Every line the loop of `children()` writes is indented by at least `a.Depth`
tabs, and every line written below a child by more. -/
theorem loopEvents_indent (n : Nat) :
    ∀ (a : atom) (buf : List Byte) (pos : Int), buf.length ≤ n →
      ∀ e ∈ loopEvents a buf pos, a.Depth ≤ e.indent := by
  induction n with
  | zero =>
    intro a buf pos h e he
    have hb : buf = [] := List.length_eq_zero.mp (by omega)
    subst hb
    rw [loopEvents_error a [] pos _ readAtom_nil] at he
    cases he
  | succ n ih =>
    intro a buf pos h e he
    cases hr : readAtom buf with
    | error err =>
      rw [loopEvents_error a buf pos _ hr] at he
      cases he
    | ok p =>
      obtain ⟨child, buf'⟩ := p
      have hlen := readAtom_length _ _ _ hr
      rw [loopEvents_ok a buf buf' pos child hr] at he
      rcases List.mem_cons.mp he with rfl | he
      · exact Nat.le_refl _
      · rcases List.mem_append.mp he with he | he
        · by_cases hc : hasChild child.Header.Name = true
          · rw [childEvents_container ⟨child.Header, child.Data, _, a.Depth⟩ hc] at he
            have := ih _ _ _ (by simp only; omega) e he
            simp only at this
            omega
          · rw [childEvents_leaf ⟨child.Header, child.Data, _, a.Depth⟩
              (by simpa using hc)] at he
            cases he
        · exact ih a buf' _ (by omega) e he

theorem childEvents_indent (a : atom) : ∀ e ∈ childEvents a, a.Depth + 1 ≤ e.indent := by
  intro e he
  by_cases hc : hasChild a.Header.Name = true
  · rw [childEvents_container _ hc] at he
    exact loopEvents_indent _ _ _ _ (Nat.le_refl _) e he
  · rw [childEvents_leaf _ (by simpa using hc)] at he
    cases he

theorem filter_indent_nil (evs : List Event) (d : Nat) (h : ∀ e ∈ evs, d + 1 ≤ e.indent) :
    evs.filter (fun e => e.indent = d) = [] := by
  rw [List.filter_eq_nil_iff]
  intro e he
  have := h e he
  simp only [decide_eq_true_eq]
  omega

theorem loopChildren_error (a : atom) (buf : List Byte) (pos : Int) (e : Error)
    (h : readAtom buf = .error e) : loopChildren a buf pos = [] := by
  simp only [loopChildren, loopEvents_error a buf pos e h, List.filter_nil, List.map_nil]

theorem loopChildren_ok (a : atom) (buf buf' : List Byte) (pos : Int) (child : atom)
    (h : readAtom buf = .ok (child, buf')) :
    loopChildren a buf pos
      = { child with
            Depth := a.Depth,
            Position := wrapInt64 (wrapInt64 (pos + child.Position) + a.Position) }
        :: loopChildren a buf' (wrapInt64 (pos + child.Position)) := by
  have hnil := filter_indent_nil _ a.Depth
    (childEvents_indent ⟨child.Header, child.Data,
      wrapInt64 (wrapInt64 (pos + child.Position) + a.Position), a.Depth⟩)
  simp only [loopChildren, loopEvents_ok a buf buf' pos child h, List.filter_cons,
    decide_True, if_true, List.filter_append, hnil, List.nil_append, List.map_cons]

/-- The children the loop of `children()` reads are the atoms that successive
`readAtom` calls return, each with `Depth` set to `a.Depth` and `Position` set
to the running `pos`, which by then includes the child's own size, plus
`a.Position`. -/
theorem loopChildren_get (n : Nat) :
    ∀ (a : atom) (buf : List Byte) (pos : Int) (k : Nat), buf.length ≤ n →
      (loopChildren a buf pos)[k]?
        = ((readAll buf)[k]?).map (fun c =>
            { c with
              Depth := a.Depth,
              Position := wrapInt64
                (pos + (sizeSum ((readAll buf).take k) + (c.Header.Size : Int))
                  + a.Position) }) := by
  induction n with
  | zero =>
    intro a buf pos k h
    have hb : buf = [] := List.length_eq_zero.mp (by omega)
    subst hb
    rw [loopChildren_error a [] pos _ readAtom_nil, readAll_error [] _ readAtom_nil]
    rfl
  | succ n ih =>
    intro a buf pos k h
    cases hr : readAtom buf with
    | error err =>
      rw [loopChildren_error a buf pos _ hr, readAll_error buf _ hr]
      rfl
    | ok p =>
      obtain ⟨child, buf'⟩ := p
      have hlen := readAtom_length _ _ _ hr
      obtain ⟨hpos, _⟩ := readAtom_fresh _ _ _ hr
      rw [loopChildren_ok a buf buf' pos child hr, readAll_ok buf buf' child hr]
      cases k with
      | zero =>
        simp only [List.getElem?_cons_zero, Option.map_some', List.take_zero, sizeSum,
          List.map_nil, List.sum_nil, zero_add, hpos, wrapInt64_add]
      | succ k =>
        simp only [List.getElem?_cons_succ, List.take_succ_cons]
        rw [ih a buf' _ k (by omega)]
        congr 1
        funext c
        have hsum : sizeSum (child :: (readAll buf').take k)
            = (child.Header.Size : Int) + sizeSum ((readAll buf').take k) := by
          simp only [sizeSum, List.map_cons, List.sum_cons]
        rw [hsum, hpos]
        have hw : wrapInt64
              (wrapInt64 (pos + (child.Header.Size : Int))
                + (sizeSum ((readAll buf').take k) + (c.Header.Size : Int)) + a.Position)
            = wrapInt64
              (pos + ((child.Header.Size : Int) + sizeSum ((readAll buf').take k)
                + (c.Header.Size : Int)) + a.Position) := by
          rw [add_assoc (wrapInt64 _), wrapInt64_add]
          congr 1
          ring
        rw [hw]

theorem directChildren_eq (a : atom) (hc : hasChild a.Header.Name = true) :
    directChildren a = loopChildren { a with Depth := a.Depth + 1 } a.Data 0 := by
  simp only [directChildren, loopChildren, childEvents_container a hc]

/-- The top-level atoms of `Probe` are the atoms successive `readAtom` calls
return on the file, untouched. -/
theorem topLevel_eq_readAll (n : Nat) :
    ∀ r : List Byte, r.length ≤ n → topLevel r = readAll r := by
  induction n with
  | zero =>
    intro r h
    have hr : r = [] := List.length_eq_zero.mp (by omega)
    subst hr
    simp only [topLevel, ProbeEvents_error [] _ readAtom_nil, readAll_error [] _ readAtom_nil,
      List.filter_nil, List.map_nil]
  | succ n ih =>
    intro r h
    cases hr : readAtom r with
    | error err =>
      simp only [topLevel, ProbeEvents_error r _ hr, readAll_error r _ hr,
        List.filter_nil, List.map_nil]
    | ok p =>
      obtain ⟨a, r'⟩ := p
      have hlen := readAtom_length _ _ _ hr
      have hnil := filter_indent_nil (childEvents a) 0 (fun e he => by
        have := childEvents_indent a e he
        omega)
      have hrest := ih r' (by omega)
      simp only [topLevel] at hrest
      simp only [topLevel, ProbeEvents_ok r r' a hr, readAll_ok r r' a hr, List.filter_cons,
        decide_True, if_true, List.filter_append, hnil, List.nil_append, List.map_cons, hrest]

theorem uint32BE_be32 (n : Nat) (h : n < 2 ^ 32) : uint32BE (be32 n) = n := by
  simp only [uint32BE, be32, List.getD_cons_zero, List.getD_cons_succ, Fin.ofNat]
  omega

theorem readAtom_encodeBox (b : List Byte × List Byte) (rest : List Byte)
    (htag : b.1.length = 4) (hsize : 8 + b.2.length < 2 ^ 32) :
    readAtom (encodeBox b ++ rest) = .ok (boxAtom b, rest) := by
  obtain ⟨t, p⟩ := b
  simp only at htag hsize
  have hbe : (be32 (8 + p.length)).length = 4 := rfl
  have hr : encodeBox (t, p) ++ rest = be32 (8 + p.length) ++ (t ++ (p ++ rest)) := by
    simp only [encodeBox, List.append_assoc]
  have htake : (encodeBox (t, p) ++ rest).take 4 = be32 (8 + p.length) := by
    rw [hr, List.take_left' hbe]
  have hdrop4 : (encodeBox (t, p) ++ rest).drop 4 = t ++ (p ++ rest) := by
    rw [hr, List.drop_left' hbe]
  have hdrop8 : (encodeBox (t, p) ++ rest).drop 8 = p ++ rest := by
    rw [show 8 = 4 + 4 from rfl, ← List.drop_drop, hdrop4, List.drop_left' htag]
  have hsz : uint32BE ((encodeBox (t, p) ++ rest).take 4) = 8 + p.length := by
    rw [htake, uint32BE_be32 _ hsize]
  have hlen : (encodeBox (t, p) ++ rest).length = 8 + p.length + rest.length := by
    simp only [hr, List.length_append, hbe, htag]; omega
  have hdropS : (encodeBox (t, p) ++ rest).drop (8 + p.length) = rest := by
    rw [← List.drop_drop, hdrop8, List.drop_left' rfl]
  rw [readAtom_whole _ (by omega) (by omega) (by omega), hsz, hdrop4, hdrop8,
    List.take_left' htag, show 8 + p.length - 8 = p.length by omega,
    List.take_left' rfl, hdropS]
  rfl

theorem readAll_encode (bs : List (List Byte × List Byte)) (rest : List Byte)
    (h : ∀ b ∈ bs, b.1.length = 4 ∧ 8 + b.2.length < 2 ^ 32) :
    readAll (bs.flatMap encodeBox ++ rest) = bs.map boxAtom ++ readAll rest := by
  induction bs with
  | nil => rfl
  | cons b bs ih =>
    have hb := h b (List.mem_cons_self _ _)
    have hbs := ih (fun c hc => h c (List.mem_cons_of_mem _ hc))
    rw [List.flatMap_cons, List.append_assoc,
      readAll_ok _ _ _ (readAtom_encodeBox b _ hb.1 hb.2), hbs]
    rfl

/-- A whole header that declares less than 8 bytes (on a source shorter than
`2^32` bytes and the size), or more bytes than the source holds, makes
`readAtom` return `io.EOF`. -/
theorem readAtom_malformed (r : List Byte) (h8 : 8 ≤ r.length)
    (hbad : (uint32BE (r.take 4) < 8 ∧ r.length < 2 ^ 32 + uint32BE (r.take 4)) ∨
      (8 ≤ uint32BE (r.take 4) ∧ r.length < uint32BE (r.take 4))) :
    readAtom r = .error .EOF := by
  have hne : r ≠ [] := by
    intro h0; rw [h0] at h8; simp at h8
  obtain ⟨hsz, _⟩ := headerBuf_size r h8
  rcases hbad with ⟨hS, hlen⟩ | ⟨hS, hlen⟩
  · have hle : ¬ uint32BE (r.take 4) + 2 ^ 32 - 8 ≤ (r.drop 8).length := by
      rw [List.length_drop]; omega
    rw [readAtom_eq, if_neg hne, hsz, bodyLen_of_lt _ hS, if_neg hle]
  · have hle : ¬ uint32BE (r.take 4) - 8 ≤ (r.drop 8).length := by
      rw [List.length_drop]; omega
    rw [readAtom_eq, if_neg hne, hsz, bodyLen_of_ge _ hS, if_neg hle]

theorem readAll_fresh (n : Nat) :
    ∀ r : List Byte, r.length ≤ n →
      ∀ t ∈ readAll r, t.Position = (t.Header.Size : Int) ∧ t.Depth = 0 := by
  induction n with
  | zero =>
    intro r h t ht
    have hr : r = [] := List.length_eq_zero.mp (by omega)
    subst hr
    rw [readAll_error [] _ readAtom_nil] at ht
    cases ht
  | succ n ih =>
    intro r h t ht
    cases hr : readAtom r with
    | error err =>
      rw [readAll_error r _ hr] at ht
      cases ht
    | ok p =>
      obtain ⟨a, r'⟩ := p
      have hlen := readAtom_length _ _ _ hr
      rw [readAll_ok r r' a hr] at ht
      rcases List.mem_cons.mp ht with rfl | ht
      · exact readAtom_fresh _ _ _ hr
      · exact ih r' (by omega) t ht

/-- The children `a.children()` reads, one by one: the `k`-th atom that
successive `readAtom` calls return on `a.Data`, with `Depth = a.Depth + 1` and
`Position` the `int64` sum of `a.Position`, the sizes of the atoms before it
and its own size. -/
theorem directChildren_get (a : atom) (hc : hasChild a.Header.Name = true) (k : Nat) :
    (directChildren a)[k]?
      = ((readAll a.Data)[k]?).map (fun c =>
          { c with
            Depth := a.Depth + 1,
            Position := wrapInt64
              (a.Position
                + (sizeSum ((readAll a.Data).take k) + (c.Header.Size : Int))) }) := by
  rw [directChildren_eq a hc, loopChildren_get _ _ _ _ _ (Nat.le_refl _)]
  congr 1
  funext c
  simp only [zero_add]
  rw [add_comm]

/-- C5, as the code has it: a malformed child at the head of the unread
payload (a header declaring less than 8 bytes, or more bytes than the payload
still holds) makes `readAtom` return `io.EOF`, which ends the loop of
`children()` as the end of the payload does, with no line written and a nil
error, for any parent at any depth.  `children()` of an atom that `Probe` read
returns nil, and `Probe` goes on with the bytes after that atom and returns nil. -/
theorem malformed_child_ends_payload (p : atom) (buf : List Byte) (pos : Int)
    (h8 : 8 ≤ buf.length)
    (hbad : (uint32BE (buf.take 4) < 8 ∧ buf.length < 2 ^ 32 + uint32BE (buf.take 4)) ∨
      (8 ≤ uint32BE (buf.take 4) ∧ buf.length < uint32BE (buf.take 4)))
    (a : atom) (r r' : List Byte) (hr : readAtom r = .ok (a, r')) :
    loop p buf pos = some ⟨[], none⟩ ∧
    children a
      = some (if hasChild a.Header.Name then { a with Depth := a.Depth + 1 } else a,
              ⟨childEvents a, none⟩) ∧
    Probe r = some ⟨⟨0, a⟩ :: (childEvents a ++ ProbeEvents r'), none⟩ := by
  refine ⟨?_, children_eq_events a, ?_⟩
  · rw [loop_eq_events, loopEvents_error p buf pos _ (readAtom_malformed buf h8 hbad)]
  · rw [Probe_eq_events, ProbeEvents_ok r r' a hr]

theorem malformed_child_ends_payload_witness :
    loop { moovBad with Depth := 1 } badPayload 0 = some ⟨[], none⟩ ∧
    children moovBad = some ({ moovBad with Depth := 1 }, ⟨[], none⟩) ∧
    Probe badFile
      = some ⟨[⟨0, moovBad⟩, ⟨0, ⟨⟨8, tag "free"⟩, [], 8, 0⟩⟩], none⟩ := by
  obtain ⟨h1, h2, h3⟩ := malformed_child_ends_payload { moovBad with Depth := 1 } badPayload 0
    (by decide) (Or.inl (by decide)) moovBad badFile ([0, 0, 0, 8] ++ tag "free") (by decide)
  exact ⟨h1, h2.trans (by decide), h3.trans (by decide)⟩

/-- C5 fails on `badFile`: the `moov` box holds a child that declares size 4,
yet `children()` returns nil, and `Probe` reads the `free` box after the `moov`
box and returns nil. -/
theorem moovBad_no_error :
    children moovBad = some ({ moovBad with Depth := 1 }, ⟨[], none⟩) ∧
    Probe badFile
      = some ⟨[⟨0, moovBad⟩, ⟨0, ⟨⟨8, tag "free"⟩, [], 8, 0⟩⟩], none⟩ ∧
    ¬ ((∃ a' evs e, children moovBad = some (a', ⟨evs, some e⟩)) ∧
        ∃ evs e, Probe badFile = some ⟨evs, some e⟩) := by
  have h1 : children moovBad = some ({ moovBad with Depth := 1 }, ⟨[], none⟩) := by decide
  refine ⟨h1, by decide, ?_⟩
  rintro ⟨⟨a', evs, e, h⟩, _⟩
  rw [h1] at h
  cases h

/-- C6: on the concatenation of the encodings of boxes with 4-byte tags and
sizes below `2^32`, successive `readAtom` calls return exactly the atoms of
those boxes, in order, and then meet whatever follows the encodings (the empty
source, hence `io.EOF`, when nothing does); these atoms are the top-level atoms
of `Probe`, and `Probe` returns nil. -/
theorem Probe_encoded_boxes (bs : List (List Byte × List Byte))
    (h : ∀ b ∈ bs, b.1.length = 4 ∧ 8 + b.2.length < 2 ^ 32) :
    (∀ rest, readAll (bs.flatMap encodeBox ++ rest) = bs.map boxAtom ++ readAll rest) ∧
    readAll (bs.flatMap encodeBox) = bs.map boxAtom ∧
    readAtom [] = .error .EOF ∧
    topLevel (bs.flatMap encodeBox) = bs.map boxAtom ∧
    Probe (bs.flatMap encodeBox) = some ⟨ProbeEvents (bs.flatMap encodeBox), none⟩ := by
  have hall : readAll (bs.flatMap encodeBox) = bs.map boxAtom := by
    have := readAll_encode bs [] h
    rw [List.append_nil, readAll_error [] _ readAtom_nil, List.append_nil] at this
    exact this
  refine ⟨fun rest => readAll_encode bs rest h, hall, readAtom_nil, ?_, Probe_eq_events _⟩
  rw [topLevel_eq_readAll _ _ (Nat.le_refl _), hall]

theorem Probe_encoded_boxes_witness :
    readAll ([0, 0, 0, 10] ++ tag "ftyp" ++ [1, 2] ++ [0, 0, 0, 8] ++ tag "free")
      = [⟨⟨10, tag "ftyp"⟩, [1, 2], 10, 0⟩, ⟨⟨8, tag "free"⟩, [], 8, 0⟩] ∧
    Probe ([0, 0, 0, 10] ++ tag "ftyp" ++ [1, 2] ++ [0, 0, 0, 8] ++ tag "free")
      = some ⟨[⟨0, ⟨⟨10, tag "ftyp"⟩, [1, 2], 10, 0⟩⟩, ⟨0, ⟨⟨8, tag "free"⟩, [], 8, 0⟩⟩],
              none⟩ := by
  obtain ⟨_, h2, _, _, h5⟩ :=
    Probe_encoded_boxes [(tag "ftyp", [1, 2]), (tag "free", [])] (by decide)
  exact ⟨h2, h5.trans (by decide)⟩

/-- C9, as the code has it: `children()` adds the child's size to `pos` before
it assigns the position, so the `k`-th child it reads from a container gets
`Depth = a.Depth + 1` and, in `int64` arithmetic, `Position = a.Position` plus
the sizes of the siblings read before it plus its own size; and it assigns one
to every atom that successive `readAtom` calls return on the data. -/
theorem children_position (a : atom) (hc : hasChild a.Header.Name = true) (k : Nat) :
    (directChildren a)[k]?
        = ((readAll a.Data)[k]?).map (fun c =>
            { c with
              Depth := a.Depth + 1,
              Position := wrapInt64
                (a.Position
                  + (sizeSum ((readAll a.Data).take k) + (c.Header.Size : Int))) }) ∧
    (directChildren a).length = (readAll a.Data).length := by
  refine ⟨directChildren_get a hc k, ?_⟩
  apply Nat.le_antisymm
  · by_contra hlt
    have h1 := directChildren_get a hc (readAll a.Data).length
    rw [List.getElem?_eq_none (Nat.le_refl _), Option.map_none',
      List.getElem?_eq_none_iff] at h1
    omega
  · by_contra hlt
    have h1 := directChildren_get a hc (directChildren a).length
    rw [List.getElem?_eq_none (Nat.le_refl _)] at h1
    have h2 : (readAll a.Data)[(directChildren a).length]? = none := by
      cases hq : (readAll a.Data)[(directChildren a).length]? with
      | none => rfl
      | some c => rw [hq] at h1; cases h1
    rw [List.getElem?_eq_none_iff] at h2
    omega

theorem children_position_witness :
    (directChildren moovAtom)[0]? = some ⟨⟨8, tag "mvhd"⟩, [], 24, 1⟩ ∧
    (directChildren moovAtom).length = 1 := by
  obtain ⟨h1, h2⟩ := children_position moovAtom (by decide) 0
  exact ⟨h1.trans (by decide), h2.trans (by decide)⟩

/-- C9 fails on the 16-byte `moov` box that holds one 8-byte `mvhd` box: the
`moov` atom has `Position` 16 and its first child `Position` 24, not the
parent's `Position` and not 0. -/
theorem moov_mvhd_positions :
    Probe moovMvhd = some ⟨[⟨0, moovAtom⟩, ⟨1, ⟨⟨8, tag "mvhd"⟩, [], 24, 1⟩⟩], none⟩ ∧
    moovAtom.Position = 16 ∧
    (directChildren moovAtom).map (fun c => c.Position) = [24] ∧
    ¬ ((directChildren moovAtom).map (fun c => c.Position)
        = [moovAtom.Position + sizeSum ((readAll moovAtom.Data).take 0)]) := by
  decide

/-- C10, as the code has it: of two successive children that `children()` reads
from one payload, the later one's `Position` is the earlier one's `Position`
plus the later one's own size (in `int64` arithmetic); `Probe` assigns no
position, so every top-level atom keeps the `Position` that `readBody` gave it,
its own size. -/
theorem consecutive_positions (a : atom) (hc : hasChild a.Header.Name = true) (k : Nat)
    (c d : atom) (hk : (directChildren a)[k]? = some c)
    (hk1 : (directChildren a)[k + 1]? = some d) :
    d.Position = wrapInt64 (c.Position + (d.Header.Size : Int)) ∧
    ∀ (r : List Byte) (t : atom), t ∈ topLevel r → t.Position = (t.Header.Size : Int) := by
  constructor
  · rw [directChildren_get a hc k] at hk
    rw [directChildren_get a hc (k + 1)] at hk1
    cases hc0 : (readAll a.Data)[k]? with
    | none => rw [hc0] at hk; cases hk
    | some c0 =>
      cases hd0 : (readAll a.Data)[k + 1]? with
      | none => rw [hd0] at hk1; cases hk1
      | some d0 =>
        rw [hc0] at hk
        rw [hd0] at hk1
        simp only [Option.map_some', Option.some.injEq] at hk hk1
        have htake : sizeSum ((readAll a.Data).take (k + 1))
            = sizeSum ((readAll a.Data).take k) + (c0.Header.Size : Int) := by
          rw [List.take_succ, hc0]
          simp only [sizeSum, Option.toList_some, List.map_append, List.map_cons,
            List.map_nil, List.sum_append, List.sum_cons, List.sum_nil, add_zero]
        rw [← hk, ← hk1]
        simp only
        rw [htake, wrapInt64_add]
        congr 1
        ring
  · intro r t ht
    rw [topLevel_eq_readAll _ _ (Nat.le_refl _)] at ht
    exact (readAll_fresh _ r (Nat.le_refl _) t ht).1

theorem consecutive_positions_witness :
    (directChildren moovTwo)[0]? = some ⟨⟨8, tag "free"⟩, [], 36, 1⟩ ∧
    (directChildren moovTwo)[1]? = some ⟨⟨12, tag "mdat"⟩, [1, 2, 3, 4], 48, 1⟩ ∧
    (48 : Int) = wrapInt64 (36 + 12) :=
  ⟨by decide, by decide,
    (consecutive_positions moovTwo (by decide) 0 ⟨⟨8, tag "free"⟩, [], 36, 1⟩
      ⟨⟨12, tag "mdat"⟩, [1, 2, 3, 4], 48, 1⟩ (by decide) (by decide)).1⟩

/-- C10 fails on an 8-byte box followed by a 12-byte box: as children of a
`moov` atom with `Position` 28 they get the positions 36 and 48, and 48 is not
36 + 8; as top-level atoms they have the positions 8 and 12, and 12 is not
8 + 8. -/
theorem twoBoxes_positions :
    (directChildren moovTwo).map (fun c => (c.Position, c.Header.Size))
      = [(36, 8), (48, 12)] ∧
    (topLevel twoBoxes).map (fun c => (c.Position, c.Header.Size)) = [(8, 8), (12, 12)] ∧
    ¬ (∀ c d : atom, (directChildren moovTwo)[0]? = some c →
        (directChildren moovTwo)[1]? = some d →
        d.Position = c.Position + (c.Header.Size : Int)) ∧
    ¬ (∀ c d : atom, (topLevel twoBoxes)[0]? = some c → (topLevel twoBoxes)[1]? = some d →
        d.Position = c.Position + (c.Header.Size : Int)) := by
  refine ⟨by decide, by decide, ?_, ?_⟩
  · intro h
    have h1 := h ⟨⟨8, tag "free"⟩, [], 36, 1⟩ ⟨⟨12, tag "mdat"⟩, [1, 2, 3, 4], 48, 1⟩
      (by decide) (by decide)
    revert h1
    decide
  · intro h
    have h1 := h ⟨⟨8, tag "free"⟩, [], 8, 0⟩ ⟨⟨12, tag "mdat"⟩, [1, 2, 3, 4], 12, 0⟩
      (by decide) (by decide)
    revert h1
    decide

/-! ## The shape of the trace -/

/-- A child the loop of `children()` reads is at the depth of the receiver, and
its data is shorter than the buffer it was read from. -/
theorem loopChildren_mem (n : Nat) :
    ∀ (a : atom) (buf : List Byte) (pos : Int), buf.length ≤ n →
      ∀ c ∈ loopChildren a buf pos, c.Depth = a.Depth ∧ c.Data.length < buf.length := by
  induction n with
  | zero =>
    intro a buf pos h c hc
    have hb : buf = [] := List.length_eq_zero.mp (by omega)
    subst hb
    rw [loopChildren_error a [] pos _ readAtom_nil] at hc
    cases hc
  | succ n ih =>
    intro a buf pos h c hc
    cases hr : readAtom buf with
    | error err =>
      rw [loopChildren_error a buf pos _ hr] at hc
      cases hc
    | ok p =>
      obtain ⟨child, buf'⟩ := p
      have hlen := readAtom_length _ _ _ hr
      rw [loopChildren_ok a buf buf' pos child hr] at hc
      rcases List.mem_cons.mp hc with rfl | hc
      · exact ⟨rfl, by simp only; omega⟩
      · have := ih a buf' _ (by omega) c hc
        exact ⟨this.1, by omega⟩

theorem directChildren_leaf (a : atom) (h : hasChild a.Header.Name = false) :
    directChildren a = [] := by
  simp only [directChildren, childEvents_leaf a h, List.filter_nil, List.map_nil]

/-- A child `children()` reads is one level deeper than the receiver, and its
data is shorter than the receiver's. -/
theorem directChildren_mem (a c : atom) (hc : c ∈ directChildren a) :
    c.Depth = a.Depth + 1 ∧ c.Data.length < a.Data.length := by
  by_cases h : hasChild a.Header.Name = true
  · rw [directChildren_eq a h] at hc
    exact loopChildren_mem _ _ _ _ (Nat.le_refl _) c hc
  · rw [directChildren_leaf a (by simpa using h)] at hc
    cases hc

/-- The lines of the loop of `children()`: for each child it reads, in order,
the line of the child and then the lines `children()` writes for that child. -/
theorem loopEvents_flatMap (n : Nat) :
    ∀ (a : atom) (buf : List Byte) (pos : Int), buf.length ≤ n →
      loopEvents a buf pos
        = (loopChildren a buf pos).flatMap (fun c => ⟨a.Depth, c⟩ :: childEvents c) := by
  induction n with
  | zero =>
    intro a buf pos h
    have hb : buf = [] := List.length_eq_zero.mp (by omega)
    subst hb
    rw [loopChildren_error a [] pos _ readAtom_nil, loopEvents_error a [] pos _ readAtom_nil]
    rfl
  | succ n ih =>
    intro a buf pos h
    cases hr : readAtom buf with
    | error err =>
      rw [loopChildren_error a buf pos _ hr, loopEvents_error a buf pos _ hr]
      rfl
    | ok p =>
      obtain ⟨child, buf'⟩ := p
      have hlen := readAtom_length _ _ _ hr
      rw [loopChildren_ok a buf buf' pos child hr, loopEvents_ok a buf buf' pos child hr,
        List.flatMap_cons, ih a buf' _ (by omega)]
      rfl

theorem childEvents_flatMap (a : atom) :
    childEvents a
      = (directChildren a).flatMap (fun c => ⟨a.Depth + 1, c⟩ :: childEvents c) := by
  by_cases h : hasChild a.Header.Name = true
  · rw [directChildren_eq a h, childEvents_container a h,
      loopEvents_flatMap _ _ _ _ (Nat.le_refl _)]
  · rw [directChildren_leaf a (by simpa using h), childEvents_leaf a (by simpa using h)]
    rfl

theorem ProbeEvents_flatMap (n : Nat) :
    ∀ r : List Byte, r.length ≤ n →
      ProbeEvents r = (readAll r).flatMap (fun a => ⟨0, a⟩ :: childEvents a) := by
  induction n with
  | zero =>
    intro r h
    have hr : r = [] := List.length_eq_zero.mp (by omega)
    subst hr
    rw [ProbeEvents_error [] _ readAtom_nil, readAll_error [] _ readAtom_nil]
    rfl
  | succ n ih =>
    intro r h
    cases hr : readAtom r with
    | error err =>
      rw [ProbeEvents_error r _ hr, readAll_error r _ hr]
      rfl
    | ok p =>
      obtain ⟨a, r'⟩ := p
      have hlen := readAtom_length _ _ _ hr
      rw [ProbeEvents_ok r r' a hr, readAll_ok r r' a hr, List.flatMap_cons,
        ih r' (by omega)]
      rfl

/-- Every line `children()` writes is indented by as many tabs as the depth of
its atom. -/
theorem childEvents_depth (n : Nat) :
    ∀ a : atom, a.Data.length ≤ n → ∀ e ∈ childEvents a, e.indent = e.box.Depth := by
  induction n with
  | zero =>
    intro a h e he
    rw [childEvents_flatMap] at he
    obtain ⟨c, hc, _⟩ := List.mem_flatMap.mp he
    have := (directChildren_mem a c hc).2
    omega
  | succ n ih =>
    intro a h e he
    rw [childEvents_flatMap] at he
    obtain ⟨c, hc, hec⟩ := List.mem_flatMap.mp he
    obtain ⟨hd, hl⟩ := directChildren_mem a c hc
    rcases List.mem_cons.mp hec with rfl | hec
    · exact hd.symm
    · exact ih c (by omega) e hec

theorem directChildren_nil_of_data (a : atom) (h : a.Data.length = 0) :
    directChildren a = [] := by
  apply List.eq_nil_iff_forall_not_mem.mpr
  intro c hc
  have := (directChildren_mem a c hc).2
  omega

/-- The children `children()` reads from a container are the atoms of its data
from left to right, placed one after the other. -/
theorem directChildren_eq_placed (a : atom) (hc : hasChild a.Header.Name = true) :
    directChildren a = placedChildren a := by
  apply List.ext_getElem?
  intro k
  rw [directChildren_get a hc k, placedChildren, List.getElem?_map, List.getElem?_enum,
    Option.map_map]
  rfl

/-- With fuel for the data of `a`, the pre-order under `a` is the line of `a`
followed by the lines `children()` writes for `a`. -/
theorem preorder_eq (f : Nat) :
    ∀ a : atom, a.Data.length ≤ f → preorder f a = ⟨a.Depth, a⟩ :: childEvents a := by
  induction f with
  | zero =>
    intro a h
    rw [childEvents_flatMap, directChildren_nil_of_data a (by omega)]
    rfl
  | succ f ih =>
    intro a h
    by_cases hc : hasChild a.Header.Name = true
    · rw [childEvents_flatMap, preorder, if_pos hc, ← directChildren_eq_placed a hc]
      congr 1
      apply List.flatMap_congr
      intro c hmem
      obtain ⟨hd, hl⟩ := directChildren_mem a c hmem
      rw [ih c (by omega), hd]
    · rw [childEvents_leaf a (by simpa using hc), preorder, if_neg hc]

/-! ## Sizes -/

/-- A header that declares less than 8 bytes on a source of at least `2^32`
bytes more: `readAtom` returns a box with the wrapped number of body bytes. -/
theorem readAtom_wrapped (r : List Byte) (h8 : 8 ≤ r.length)
    (hS : uint32BE (r.take 4) < 8) (hlen : 2 ^ 32 + uint32BE (r.take 4) ≤ r.length) :
    readAtom r
      = .ok (⟨⟨uint32BE (r.take 4), (r.drop 4).take 4⟩,
              (r.drop 8).take (uint32BE (r.take 4) + 2 ^ 32 - 8),
              (uint32BE (r.take 4) : Int), 0⟩,
             r.drop (2 ^ 32 + uint32BE (r.take 4))) := by
  have hne : r ≠ [] := by
    intro h0; rw [h0] at h8; simp at h8
  obtain ⟨hsz, hnm⟩ := headerBuf_size r h8
  have hle : uint32BE (r.take 4) + 2 ^ 32 - 8 ≤ (r.drop 8).length := by
    rw [List.length_drop]; omega
  have hdrop : (r.drop 8).drop (uint32BE (r.take 4) + 2 ^ 32 - 8)
      = r.drop (2 ^ 32 + uint32BE (r.take 4)) := by
    rw [List.drop_drop]; congr 1; omega
  rw [readAtom_eq, if_neg hne, hsz, hnm, bodyLen_of_lt _ hS, if_pos hle, hdrop]

/-- The body of an atom `readAtom` returns has the `uint32` difference of its
size and 8 as length; on a source shorter than `2^32` bytes the size is at
least 8. -/
theorem readAtom_sizes_aux (r r' : List Byte) (a : atom) (h : readAtom r = .ok (a, r')) :
    a.Data.length = bodyLen a.Header.Size ∧ a.Header.Size < 2 ^ 32 ∧
    bodyLen a.Header.Size ≤ (r.drop 8).length := by
  rw [readAtom_eq] at h
  split at h
  · cases h
  · split at h
    · rename_i hle
      cases h
      refine ⟨?_, uint32BE_lt _, hle⟩
      simp only [List.length_take]
      omega
    · cases h

/-- With fewer than four bytes the zero-filled size field is a multiple of 256. -/
theorem headerBuf_short_size (r : List Byte) (h : r.length < 4) :
    uint32BE ((headerBuf r).take 4) ≠ 8 := by
  rcases r with _ | ⟨a, _ | ⟨b, _ | ⟨c, _ | ⟨d, r⟩⟩⟩⟩
  · decide
  · simp [headerBuf, uint32BE]; omega
  · simp [headerBuf, uint32BE]; omega
  · simp [headerBuf, uint32BE]; omega
  · simp at h; omega

/-- What a successful `readAtom` takes from the source: from a whole header at
least as many bytes as the size it declares; from less than a header, the four
to seven bytes that are left, for a box of size 8 without data. -/
theorem readAtom_consumed (r r' : List Byte) (a : atom) (h : readAtom r = .ok (a, r')) :
    (8 ≤ r.length → a.Header.Size + r'.length ≤ r.length) ∧
    (r.length < 8 → a.Header.Size = 8 ∧ r' = [] ∧ a.Data = [] ∧ 4 ≤ r.length) := by
  rw [readAtom_eq] at h
  split at h
  · cases h
  · split at h
    · rename_i hne hle
      cases h
      simp only
      constructor
      · intro h8
        rw [List.length_drop] at hle
        rw [List.length_drop, List.length_drop]
        rcases Nat.lt_or_ge (uint32BE ((headerBuf r).take 4)) 8 with hlt | hge
        · rw [bodyLen_of_lt _ hlt] at hle ⊢; omega
        · rw [bodyLen_of_ge _ hge] at hle ⊢; omega
      · intro h8
        have hd : r.drop 8 = [] := List.drop_of_length_le (by omega)
        rw [hd] at hle ⊢
        have hlt := uint32BE_lt ((headerBuf r).take 4)
        have hS : uint32BE ((headerBuf r).take 4) = 8 := by
          rcases Nat.lt_or_ge (uint32BE ((headerBuf r).take 4)) 8 with hlt8 | hge8
          · rw [bodyLen_of_lt _ hlt8] at hle; simp only [List.length_nil] at hle; omega
          · rw [bodyLen_of_ge _ hge8] at hle; simp only [List.length_nil] at hle; omega
        refine ⟨hS, by simp, by simp, ?_⟩
        by_contra hlt4
        exact headerBuf_short_size r (by omega) hS
    · cases h

theorem sizeSum_nil : sizeSum [] = 0 := rfl

theorem sizeSum_cons (c : atom) (cs : List atom) :
    sizeSum (c :: cs) = (c.Header.Size : Int) + sizeSum cs := by
  simp only [sizeSum, List.map_cons, List.sum_cons]

theorem sizeSum_headers (cs ds : List atom)
    (h : cs.map (fun c => c.Header) = ds.map (fun c => c.Header)) :
    sizeSum cs = sizeSum ds := by
  have hc : ∀ l : List atom,
      l.map (fun c => (c.Header.Size : Int))
        = (l.map (fun c => c.Header)).map (fun hd => (hd.Size : Int)) := by
    intro l; rw [List.map_map]; rfl
  rw [sizeSum, sizeSum, hc cs, hc ds, h]

/-- The children the loop of `children()` reads carry the headers of the atoms
that successive `readAtom` calls return. -/
theorem loopChildren_headers (n : Nat) :
    ∀ (a : atom) (buf : List Byte) (pos : Int), buf.length ≤ n →
      (loopChildren a buf pos).map (fun c => c.Header)
        = (readAll buf).map (fun c => c.Header) := by
  induction n with
  | zero =>
    intro a buf pos h
    have hb : buf = [] := List.length_eq_zero.mp (by omega)
    subst hb
    rw [loopChildren_error a [] pos _ readAtom_nil, readAll_error [] _ readAtom_nil]
  | succ n ih =>
    intro a buf pos h
    cases hr : readAtom buf with
    | error err =>
      rw [loopChildren_error a buf pos _ hr, readAll_error buf _ hr]
    | ok p =>
      obtain ⟨child, buf'⟩ := p
      have hlen := readAtom_length _ _ _ hr
      rw [loopChildren_ok a buf buf' pos child hr, readAll_ok buf buf' child hr,
        List.map_cons, List.map_cons, ih a buf' _ (by omega)]

theorem directChildren_headers (a : atom) (hc : hasChild a.Header.Name = true) :
    (directChildren a).map (fun c => c.Header) = (readAll a.Data).map (fun c => c.Header) := by
  rw [directChildren_eq a hc, loopChildren_headers _ _ _ _ (Nat.le_refl _)]

/-- The sizes of the atoms that successive `readAtom` calls return add up to at
most four more than the length of the source, and without the last atom to at
most that length. -/
theorem readAll_size_le (n : Nat) :
    ∀ buf : List Byte, buf.length ≤ n →
      sizeSum (readAll buf) ≤ (buf.length : Int) + 4 ∧
      sizeSum (readAll buf).dropLast ≤ (buf.length : Int) := by
  induction n with
  | zero =>
    intro buf h
    have hb : buf = [] := List.length_eq_zero.mp (by omega)
    subst hb
    rw [readAll_error [] _ readAtom_nil]
    simp [sizeSum_nil]
  | succ n ih =>
    intro buf h
    cases hr : readAtom buf with
    | error err =>
      rw [readAll_error buf _ hr]
      simp only [List.dropLast_nil, sizeSum_nil]
      omega
    | ok p =>
      obtain ⟨c, buf'⟩ := p
      have hlen := readAtom_length _ _ _ hr
      obtain ⟨hfull, hshort⟩ := readAtom_consumed _ _ _ hr
      obtain ⟨ih1, ih2⟩ := ih buf' (by omega)
      rw [readAll_ok buf buf' c hr]
      rcases Nat.lt_or_ge buf.length 8 with h8 | h8
      · obtain ⟨hS, hb', _, h4⟩ := hshort h8
        subst hb'
        rw [readAll_error [] _ readAtom_nil]
        simp only [sizeSum_cons, sizeSum_nil, List.dropLast_single, hS]
        omega
      · have hc := hfull h8
        constructor
        · rw [sizeSum_cons]; omega
        · by_cases hnil : readAll buf' = []
          · rw [hnil]
            simp only [List.dropLast_single, sizeSum_nil]
            omega
          · rw [List.dropLast_cons_of_ne_nil hnil, sizeSum_cons]
            omega

theorem be32_uint32BE (b : List Byte) (h : b.length = 4) : be32 (uint32BE b) = b := by
  rcases b with _ | ⟨b0, _ | ⟨b1, _ | ⟨b2, _ | ⟨b3, _ | ⟨b4, b⟩⟩⟩⟩⟩
  · simp at h
  · simp at h
  · simp at h
  · simp at h
  · have h0 := b0.isLt
    have h1 := b1.isLt
    have h2 := b2.isLt
    have h3 := b3.isLt
    simp only [uint32BE, be32, List.getD_cons_zero, List.getD_cons_succ, Fin.ofNat]
    have e0 : (b3.val + b2.val * 2 ^ 8 + b1.val * 2 ^ 16 + b0.val * 2 ^ 24) / 2 ^ 24 % (255 + 1)
        = b0.val := by omega
    have e1 : (b3.val + b2.val * 2 ^ 8 + b1.val * 2 ^ 16 + b0.val * 2 ^ 24) / 2 ^ 16 % (255 + 1)
        = b1.val := by omega
    have e2 : (b3.val + b2.val * 2 ^ 8 + b1.val * 2 ^ 16 + b0.val * 2 ^ 24) / 2 ^ 8 % (255 + 1)
        = b2.val := by omega
    have e3 : (b3.val + b2.val * 2 ^ 8 + b1.val * 2 ^ 16 + b0.val * 2 ^ 24) % (255 + 1)
        = b3.val := by omega
    simp only [e0, e1, e2, e3]
  · simp at h

theorem encodeBox_length (b : List Byte × List Byte) :
    (encodeBox b).length = 4 + b.1.length + b.2.length := by
  simp only [encodeBox, be32, List.length_append, List.length_cons, List.length_nil]

/-- A box read from a whole header that declares at least 8 bytes is the
encoding of its name and data, and the source goes on after it. -/
theorem readAtom_decode (r r' : List Byte) (a : atom) (h : readAtom r = .ok (a, r'))
    (h8 : 8 ≤ r.length) (hS : 8 ≤ a.Header.Size) :
    r = encodeBox (a.Header.Name, a.Data) ++ r' ∧ a.Header.Name.length = 4 ∧
    a.Header.Size = 8 + a.Data.length := by
  obtain ⟨hsz, hnm⟩ := headerBuf_size r h8
  rw [readAtom_eq] at h
  split at h
  · cases h
  · split at h
    · rename_i hne hle
      cases h
      simp only at hS ⊢
      rw [hsz] at hS hle ⊢
      rw [hnm, bodyLen_of_ge _ hS] at *
      rw [List.length_drop] at hle
      have hdl : ((r.drop 8).take (uint32BE (r.take 4) - 8)).length
          = uint32BE (r.take 4) - 8 := by
        rw [List.length_take, List.length_drop]; omega
      have hnl : ((r.drop 4).take 4).length = 4 := by
        rw [List.length_take, List.length_drop]; omega
      have htl : (r.take 4).length = 4 := by
        rw [List.length_take]; omega
      refine ⟨?_, hnl, by rw [hdl]; omega⟩
      simp only [encodeBox]
      rw [hdl, show 8 + (uint32BE (r.take 4) - 8) = uint32BE (r.take 4) by omega,
        be32_uint32BE _ htl, List.append_assoc, List.append_assoc, List.take_append_drop]
      have h48 : r.drop 8 = (r.drop 4).drop 4 := by rw [List.drop_drop]
      rw [h48, List.take_append_drop, List.take_append_drop]
    · cases h

theorem boxes_size (bs : List (List Byte × List Byte)) (h : ∀ b ∈ bs, b.1.length = 4) :
    sizeSum (bs.map boxAtom) = ((bs.flatMap encodeBox).length : Int) := by
  induction bs with
  | nil => rfl
  | cons b bs ih =>
    have hb := h b (List.mem_cons_self _ _)
    rw [List.map_cons, sizeSum_cons, ih (fun c hc => h c (List.mem_cons_of_mem _ hc)),
      List.flatMap_cons, List.length_append, encodeBox_length, hb]
    simp only [boxAtom]
    omega

theorem encodeBox_le (bs : List (List Byte × List Byte)) (b : List Byte × List Byte)
    (hb : b ∈ bs) : (encodeBox b).length ≤ (bs.flatMap encodeBox).length := by
  induction bs with
  | nil => cases hb
  | cons c bs ih =>
    rw [List.flatMap_cons, List.length_append]
    rcases List.mem_cons.mp hb with rfl | hb
    · omega
    · have := ih hb
      omega

/-- On a source shorter than `2^32` bytes the sizes of the atoms that successive
`readAtom` calls return add up to the length of the source exactly when the
source is a concatenation of box encodings. -/
theorem readAll_exact (n : Nat) :
    ∀ buf : List Byte, buf.length ≤ n → buf.length < 2 ^ 32 →
      (sizeSum (readAll buf) = (buf.length : Int) ↔
        ∃ bs : List (List Byte × List Byte),
          (∀ b ∈ bs, b.1.length = 4) ∧ buf = bs.flatMap encodeBox) := by
  have hback : ∀ buf : List Byte, buf.length < 2 ^ 32 →
      (∃ bs : List (List Byte × List Byte),
        (∀ b ∈ bs, b.1.length = 4) ∧ buf = bs.flatMap encodeBox) →
      sizeSum (readAll buf) = (buf.length : Int) := by
    rintro buf hlt ⟨bs, htag, rfl⟩
    have hall : ∀ b ∈ bs, b.1.length = 4 ∧ 8 + b.2.length < 2 ^ 32 := by
      intro b hb
      have h1 := encodeBox_le bs b hb
      rw [encodeBox_length, htag b hb] at h1
      exact ⟨htag b hb, by omega⟩
    have h2 := readAll_encode bs [] hall
    rw [List.append_nil, readAll_error [] _ readAtom_nil, List.append_nil] at h2
    rw [h2, boxes_size bs htag]
  induction n with
  | zero =>
    intro buf h hlt
    have hb : buf = [] := List.length_eq_zero.mp (by omega)
    subst hb
    exact ⟨fun _ => ⟨[], by simp, rfl⟩, hback [] hlt⟩
  | succ n ih =>
    intro buf h hlt
    refine ⟨?_, hback buf hlt⟩
    intro hsum
    cases hr : readAtom buf with
    | error err =>
      rw [readAll_error buf _ hr, sizeSum_nil] at hsum
      have hb : buf = [] := List.length_eq_zero.mp (by omega)
      subst hb
      exact ⟨[], by simp, rfl⟩
    | ok p =>
      obtain ⟨c, buf'⟩ := p
      have hlen := readAtom_length _ _ _ hr
      obtain ⟨hfull, hshort⟩ := readAtom_consumed _ _ _ hr
      obtain ⟨hd, _, hle⟩ := readAtom_sizes_aux _ _ _ hr
      rw [readAll_ok buf buf' c hr, sizeSum_cons] at hsum
      rcases Nat.lt_or_ge buf.length 8 with h8 | h8
      · obtain ⟨hS, hb', _, _⟩ := hshort h8
        subst hb'
        rw [readAll_error [] _ readAtom_nil, sizeSum_nil, hS] at hsum
        omega
      · have hS : 8 ≤ c.Header.Size := by
          rcases Nat.lt_or_ge c.Header.Size 8 with hS | hS
          · rw [bodyLen_of_lt _ hS, List.length_drop] at hle; omega
          · exact hS
        obtain ⟨henc, htag, hsz⟩ := readAtom_decode _ _ _ hr h8 hS
        have hl : buf.length = c.Header.Size + buf'.length := by
          have := congrArg List.length henc
          rw [List.length_append, encodeBox_length, htag] at this
          simp only at this
          omega
        have hsum' : sizeSum (readAll buf') = (buf'.length : Int) := by omega
        obtain ⟨bs, hbs, hbuf'⟩ := (ih buf' (by omega) (by omega)).mp hsum'
        refine ⟨(c.Header.Name, c.Data) :: bs, ?_, ?_⟩
        · intro b hb
          rcases List.mem_cons.mp hb with rfl | hb
          · exact htag
          · exact hbs b hb
        · rw [List.flatMap_cons, ← hbuf']
          exact henc

/-! ## Claims about the traversal -/

/-- C11, as the code has it: when the first `readAtom` call of `Probe`
succeeds, the first line `Probe` writes is the unindented line of the atom
returned, at depth 0; the atom's `Position` is not 0 but its own size, which
`readBody` stored and `Probe` leaves alone. -/
theorem first_atom_position (r r' : List Byte) (a : atom) (h : readAtom r = .ok (a, r')) :
    (ProbeEvents r).head? = some ⟨0, a⟩ ∧
    (topLevel r).head? = some a ∧
    a.Position = (a.Header.Size : Int) ∧ a.Depth = 0 := by
  refine ⟨?_, ?_, readAtom_fresh r r' a h⟩
  · rw [ProbeEvents_ok r r' a h]; rfl
  · rw [topLevel_eq_readAll _ _ (Nat.le_refl _), readAll_ok r r' a h]; rfl

theorem first_atom_position_witness :
    readAtom free8 = .ok (⟨⟨8, tag "free"⟩, [], 8, 0⟩, []) ∧
    (ProbeEvents free8).head? = some ⟨0, ⟨⟨8, tag "free"⟩, [], 8, 0⟩⟩ :=
  ⟨by decide, (first_atom_position free8 [] _ (by decide)).1⟩

/-- C11 fails on the single box `0 0 0 8 f r e e`: `Probe` writes exactly one
line, for an atom at depth 0 without children, whose `Position` is 8, not 0. -/
theorem free8_position :
    Probe free8 = some ⟨[⟨0, ⟨⟨8, tag "free"⟩, [], 8, 0⟩⟩], none⟩ ∧
    (topLevel free8).map (fun a => a.Position) = [8] ∧
    ¬ ((topLevel free8).map (fun a => a.Position) = [0]) := by
  decide

/-- C12: every atom the top-level loop reads is written on an unindented line
at depth 0; every child `children()` reads from an atom is written, among the
lines of that call, on a line one tab deeper than the atom's depth, with a
depth one greater than the atom's; and every line is indented by exactly as
many tabs as the depth of its atom. -/
theorem depth_of_lines (r : List Byte) (p : atom) :
    (∀ a ∈ readAll r, a.Depth = 0 ∧ (⟨0, a⟩ : Event) ∈ ProbeEvents r) ∧
    topLevel r = readAll r ∧
    (∀ e ∈ ProbeEvents r, e.indent = e.box.Depth) ∧
    (∀ e ∈ childEvents p, e.indent = e.box.Depth) ∧
    (∀ c ∈ directChildren p,
      c.Depth = p.Depth + 1 ∧ (⟨p.Depth + 1, c⟩ : Event) ∈ childEvents p) ∧
    childEvents p
      = (directChildren p).flatMap (fun c => ⟨p.Depth + 1, c⟩ :: childEvents c) := by
  have hflat := ProbeEvents_flatMap _ r (Nat.le_refl _)
  refine ⟨?_, topLevel_eq_readAll _ r (Nat.le_refl _), ?_,
    childEvents_depth _ p (Nat.le_refl _), ?_, childEvents_flatMap p⟩
  · intro a ha
    refine ⟨(readAll_fresh _ r (Nat.le_refl _) a ha).2, ?_⟩
    rw [hflat]
    exact List.mem_flatMap_of_mem ha (List.mem_cons_self _ _)
  · intro e he
    rw [hflat] at he
    obtain ⟨a, ha, hea⟩ := List.mem_flatMap.mp he
    rcases List.mem_cons.mp hea with rfl | hea
    · exact (readAll_fresh _ r (Nat.le_refl _) a ha).2.symm
    · exact childEvents_depth _ a (Nat.le_refl _) e hea
  · intro c hc
    refine ⟨(directChildren_mem p c hc).1, ?_⟩
    rw [childEvents_flatMap]
    exact List.mem_flatMap_of_mem hc (List.mem_cons_self _ _)

/-- The lines below a `trak` atom at depth 1: its `tkhd` child, two tabs deep. -/
theorem trak_lines :
    childEvents trakAtom = [⟨2, ⟨⟨8, tag "tkhd"⟩, [], 48, 2⟩⟩] := by
  decide

/-- C13: the lines `Probe` writes are, for each atom the top-level loop reads,
in order, the depth-first pre-order of the box tree under that atom: the line
of the atom, then for each of its children from left to right the whole
pre-order under that child; and the lines `children()` writes for an atom are
the pre-order under it without its own line. -/
theorem trace_is_preorder (r : List Byte) (a : atom) :
    ProbeEvents r = (readAll r).flatMap (fun b => preorder b.Data.length b) ∧
    (⟨a.Depth, a⟩ : Event) :: childEvents a = preorder a.Data.length a := by
  refine ⟨?_, (preorder_eq _ a (Nat.le_refl _)).symm⟩
  rw [ProbeEvents_flatMap _ r (Nat.le_refl _)]
  apply List.flatMap_congr
  intro b hb
  rw [preorder_eq _ b (Nat.le_refl _), (readAll_fresh _ r (Nat.le_refl _) b hb).2]

/-- C14: on the empty source `readAtom` returns `io.EOF`, and `Probe` writes
nothing and returns nil. -/
theorem Probe_empty :
    readAtom [] = .error .EOF ∧ Probe [] = some ⟨[], none⟩ ∧ ProbeEvents [] = [] :=
  ⟨readAtom_nil, Probe_of_error [] _ readAtom_nil, ProbeEvents_error [] _ readAtom_nil⟩

/-- C15, as the code has it: the data of an atom `readAtom` returns has the
`uint32` difference of the size and 8 as its length.  On a source shorter than
`2^32` bytes the size is at least 8 and the length is the size less 8; a size
below 8 comes back from a source of at least `2^32` bytes more than the size,
with `2^32` bytes more than the size less 8 as data. -/
theorem readAtom_sizes (r r' : List Byte) (a : atom) (h : readAtom r = .ok (a, r')) :
    a.Data.length = (a.Header.Size + 2 ^ 32 - 8) % 2 ^ 32 ∧
    (r.length < 2 ^ 32 → 8 ≤ a.Header.Size ∧ a.Data.length = a.Header.Size - 8) ∧
    (8 ≤ a.Header.Size → a.Data.length = a.Header.Size - 8) ∧
    (a.Header.Size < 8 →
      2 ^ 32 + a.Header.Size ≤ r.length ∧ a.Data.length = a.Header.Size + 2 ^ 32 - 8) := by
  obtain ⟨hd, hlt, hle⟩ := readAtom_sizes_aux r r' a h
  rw [List.length_drop] at hle
  refine ⟨?_, ?_, ?_, ?_⟩
  · rw [hd, bodyLen, headerSize, subUint32_eq_mod _ 8 hlt (by omega)]
  · intro hr
    rcases Nat.lt_or_ge a.Header.Size 8 with hS | hS
    · rw [bodyLen_of_lt _ hS] at hle; omega
    · rw [bodyLen_of_ge _ hS] at hd; exact ⟨hS, hd⟩
  · intro hS
    rw [bodyLen_of_ge _ hS] at hd; exact hd
  · intro hS
    rw [bodyLen_of_lt _ hS] at hd hle
    exact ⟨by omega, hd⟩

theorem readAtom_sizes_witness :
    readAtom freeBox12 = .ok (⟨⟨12, tag "free"⟩, [1, 2, 3, 4], 12, 0⟩, [9]) ∧
    (8 ≤ 12 ∧ [(1 : Byte), 2, 3, 4].length = 12 - 8) :=
  ⟨by decide,
    (readAtom_sizes freeBox12 [9] ⟨⟨12, tag "free"⟩, [1, 2, 3, 4], 12, 0⟩ (by decide)).2.1
      (by decide)⟩

/-- C15 fails on the header `0 0 0 4 f r e e` followed by `2^32 - 4` more
bytes: `readAtom` returns an atom of size 4 whose data are those bytes. -/
theorem readAtom_size4_long :
    ∃ a r', readAtom (size4 ++ List.replicate (2 ^ 32 - 4) 0) = .ok (a, r') ∧
      a.Header.Size = 4 ∧ a.Data.length = 2 ^ 32 - 4 ∧
      ¬ (8 ≤ a.Header.Size ∧ a.Data.length = a.Header.Size - 8) := by
  have key : ∀ t : List Byte, t.length = 2 ^ 32 - 4 →
      ∃ a r', readAtom (size4 ++ t) = .ok (a, r') ∧
        a.Header.Size = 4 ∧ a.Data.length = 2 ^ 32 - 4 ∧
        ¬ (8 ≤ a.Header.Size ∧ a.Data.length = a.Header.Size - 8) := by
    intro t ht
    have hl4 : size4.length = 8 := rfl
    have hlen : (size4 ++ t).length = 8 + (2 ^ 32 - 4) := by
      rw [List.length_append, hl4, ht]
    have htake : (size4 ++ t).take 4 = size4.take 4 :=
      List.take_append_of_le_length (by rw [hl4]; omega)
    have hS : uint32BE ((size4 ++ t).take 4) = 4 := by
      rw [htake]; decide
    refine ⟨_, _, readAtom_wrapped (size4 ++ t) (by omega) (by omega) (by omega), ?_, ?_, ?_⟩
    · exact hS
    · simp only [List.length_take, List.length_drop, hS, hlen]
      omega
    · simp only [hS]
      omega
  exact key _ (List.length_replicate _ _)

/-- C16: for a container whose data is shorter than `2^32` bytes, the sizes of
the children `children()` reads add up to the length of the data exactly when
the data is a concatenation of box encodings (a big-endian size of 8 plus the
payload length, a 4-byte tag, the payload) with nothing after them. -/
theorem children_sizes_exact (a : atom) (hc : hasChild a.Header.Name = true)
    (hlen : a.Data.length < 2 ^ 32) :
    sizeSum (directChildren a) = (a.Data.length : Int) ↔
      ∃ bs : List (List Byte × List Byte),
        (∀ b ∈ bs, b.1.length = 4) ∧ a.Data = bs.flatMap encodeBox := by
  rw [sizeSum_headers _ _ (directChildren_headers a hc)]
  exact readAll_exact _ a.Data (Nat.le_refl _) hlen

theorem children_sizes_exact_witness :
    sizeSum (directChildren moovTwo) = ((20 : Nat) : Int) ∧
    ¬ (sizeSum (directChildren moovBad) = ((16 : Nat) : Int)) :=
  ⟨(children_sizes_exact moovTwo (by decide) (by decide)).mpr
      ⟨[(tag "free", []), (tag "mdat", [1, 2, 3, 4])], by decide, by decide⟩,
    by decide⟩

/-- C17, as the code has it: the sizes of the children `children()` reads from a
container add up to at most four more than the length of its data, and the
sizes of all but the last child to at most that length: only a last child read
from the four to seven bytes at the end of the data can reach beyond it. -/
theorem children_sizes_bound (a : atom) (hc : hasChild a.Header.Name = true) :
    sizeSum (directChildren a) ≤ (a.Data.length : Int) + 4 ∧
    sizeSum (directChildren a).dropLast ≤ (a.Data.length : Int) := by
  obtain ⟨h1, h2⟩ := readAll_size_le _ a.Data (Nat.le_refl _)
  have hh := directChildren_headers a hc
  constructor
  · rw [sizeSum_headers _ _ hh]; exact h1
  · have hd : (directChildren a).dropLast.map (fun c => c.Header)
        = (readAll a.Data).dropLast.map (fun c => c.Header) := by
      rw [List.map_dropLast, List.map_dropLast, hh]
    rw [sizeSum_headers _ _ hd]; exact h2

theorem children_sizes_bound_witness :
    sizeSum (directChildren moovTwo) ≤ ((20 : Nat) : Int) + 4 ∧
    sizeSum (directChildren moovTwo).dropLast ≤ ((20 : Nat) : Int) :=
  children_sizes_bound moovTwo (by decide)

/-- C17 fails on a `moov` atom whose data is `0 0 0 8`: `children()` reads one
child of size 8 from the four bytes. -/
theorem moovShort_sizes :
    (directChildren moovShort).map (fun c => (c.Header.Size, c.Header.Name, c.Data))
      = [(8, [0, 0, 0, 0], [])] ∧
    sizeSum (directChildren moovShort) = 8 ∧ moovShort.Data.length = 4 ∧
    ¬ (sizeSum (directChildren moovShort) ≤ (moovShort.Data.length : Int)) := by
  decide

/-- C18: `Probe` and `children()` return on every input.  `readHeader` takes at
least one byte from a source that is not empty, a successful `readAtom` leaves
fewer bytes than it was given, and the data of the atom it returns is shorter
than the source it was read from. -/
theorem walk_terminates (r : List Byte) (a : atom) :
    (∃ res, Probe r = some res) ∧
    (∃ res, children a = some res) ∧
    (r ≠ [] → ∃ h r', readHeader r = .ok (h, r') ∧ r'.length < r.length) ∧
    (∀ c r', readAtom r = .ok (c, r') → r'.length < r.length ∧ c.Data.length < r.length) ∧
    (∀ c ∈ directChildren a, c.Data.length < a.Data.length) := by
  refine ⟨⟨_, Probe_eq_events r⟩, ⟨_, children_eq_events a⟩, ?_, ?_, ?_⟩
  · intro hne
    refine ⟨_, _, readHeader_cons r hne, ?_⟩
    have hpos : 0 < r.length := List.length_pos.mpr hne
    rw [List.length_drop]
    omega
  · intro c r' h
    have := readAtom_length r r' c h
    omega
  · intro c hc
    exact (directChildren_mem a c hc).2

/-- At every natural depth `children()` returns nil, whatever the name and the
data of the atom: the only error `readAtom` returns on a buffer is `io.EOF`,
and the loop ends on it. -/
theorem children_returns_nil (a : atom) :
    (∃ a' evs, children a = some (a', ⟨evs, none⟩)) ∧
    (∀ (buf : List Byte) (e : Error), readAtom buf = .error e → e = .EOF) ∧
    (∀ (p : atom) (buf : List Byte) (pos : Int), ∃ evs, loop p buf pos = some ⟨evs, none⟩) :=
  ⟨children_total a, fun buf e h => readAtom_error buf e h, fun p buf pos => loop_total p buf pos⟩

/-- C20: `children()` leaves an atom whose name is not a container tag as it
was; of an atom whose name is a container tag it changes the depth alone,
adding 1 at every call. -/
theorem children_frame (a : atom) :
    ∃ a' res, children a = some (a', res) ∧
      (hasChild a.Header.Name = false → a' = a) ∧
      (hasChild a.Header.Name = true →
        a'.Header = a.Header ∧ a'.Data = a.Data ∧ a'.Position = a.Position ∧
        a'.Depth = a.Depth + 1 ∧
        ∃ a'' res', children a' = some (a'', res') ∧ a''.Header = a.Header ∧
          a''.Data = a.Data ∧ a''.Position = a.Position ∧ a''.Depth = a.Depth + 2) := by
  refine ⟨_, _, children_eq_events a, ?_, ?_⟩
  · intro h; simp only [h, Bool.false_eq_true, if_false]
  · intro h
    simp only [h, if_true, true_and]
    refine ⟨_, _, children_eq_events _, ?_⟩
    simp only [h, if_true, true_and]

/-! ## Depth as an int -/

theorem wrapInt64_id (x : Int) (hlo : -2 ^ 63 ≤ x) (hhi : x < 2 ^ 63) : wrapInt64 x = x := by
  unfold wrapInt64
  omega

/-- On natural depths that stay below `2^63`, `children()` with `Depth` as an
`int` does what `children()` with `Depth` as a natural number does, and does
not panic. -/
theorem childrenInt_agrees (f : Nat) :
    (∀ a : atom, (a.Depth : Int) + f < 2 ^ 63 →
      childrenIntFuel f (liftAtom a)
        = (childrenFuel f a).map (fun x => Run.ret (liftAtom x.1, liftResult x.2))) ∧
    (∀ (a : atom) (buf : List Byte) (pos : Int), (a.Depth : Int) + f < 2 ^ 63 →
      childrenIntLoop f (liftAtom a) buf pos
        = (childrenLoop f a buf pos).map (fun r => Run.ret (liftResult r))) := by
  induction f with
  | zero =>
    constructor
    · intro a _; rfl
    · intro a buf pos _; rfl
  | succ f ih =>
    obtain ⟨ihc, ihl⟩ := ih
    constructor
    · intro a h
      have hup : ({ liftAtom a with Depth := wrapInt64 ((liftAtom a).Depth + 1) } : atomInt)
          = liftAtom { a with Depth := a.Depth + 1 } := by
        simp only [liftAtom, Nat.cast_add, Nat.cast_one]
        rw [wrapInt64_id _ (by omega) (by omega)]
      simp only [childrenIntFuel, childrenFuel]
      by_cases hc : hasChild a.Header.Name = true
      · have hc' : hasChild (liftAtom a).Header.Name = true := hc
        simp only [hc, hc', Bool.not_true, Bool.false_eq_true, if_false]
        have hd : (liftAtom a).Data = a.Data := rfl
        rw [hup, hd, ihl { a with Depth := a.Depth + 1 } a.Data 0
          (by simp only [Nat.cast_add, Nat.cast_one]; omega)]
        cases childrenLoop f { a with Depth := a.Depth + 1 } a.Data 0 with
        | none => rfl
        | some res => rfl
      · have hc0 : hasChild a.Header.Name = false := by simpa using hc
        have hc' : hasChild (liftAtom a).Header.Name = false := hc0
        simp only [hc0, hc', Bool.not_false, if_true]
        rfl
    · intro a buf pos h
      simp only [childrenIntLoop, childrenLoop]
      cases hr : readAtom buf with
      | error err =>
        simp only
        split <;> rfl
      | ok p =>
        obtain ⟨child, buf'⟩ := p
        have hneg : ¬ (liftAtom a).Depth < 0 := by
          simp only [liftAtom]; omega
        simp only [hneg, if_false]
        have hchild : (⟨child.Header, child.Data,
              wrapInt64 (wrapInt64 (pos + child.Position) + (liftAtom a).Position),
              (liftAtom a).Depth⟩ : atomInt)
            = liftAtom { child with
                Depth := a.Depth,
                Position := wrapInt64 (wrapInt64 (pos + child.Position) + a.Position) } := rfl
        have hnat : (liftAtom a).Depth.toNat = a.Depth := by
          simp only [liftAtom, Int.toNat_ofNat]
        rw [hchild, hnat, ihc _ (by simp only; omega),
          ihl a buf' (wrapInt64 (pos + child.Position)) (by omega)]
        cases childrenFuel f { child with
            Depth := a.Depth,
            Position := wrapInt64 (wrapInt64 (pos + child.Position) + a.Position) } with
        | none => rfl
        | some x =>
          obtain ⟨a2, ⟨evs, err⟩⟩ := x
          cases err with
          | some e => rfl
          | none =>
            cases childrenLoop f a buf' (wrapInt64 (pos + child.Position)) with
            | none => rfl
            | some r =>
              obtain ⟨evs', err'⟩ := r
              simp only [Option.map_some', liftResult, List.map_cons, List.map_append]
              rfl
/-- `children()` on an atom at a natural depth, seen as an `atomInt`. -/
theorem childrenInt_lift (a : atom) (h : (a.Depth : Int) + (2 * a.Data.length + 2) < 2 ^ 63) :
    childrenInt (liftAtom a)
      = (children a).map (fun x => Run.ret (liftAtom x.1, liftResult x.2)) := by
  have := (childrenInt_agrees (2 * a.Data.length + 2)).1 a (by push_cast; omega)
  exact this

/-- C19, as the code has it: `children()` returns nil for every atom whose
depth is at least `-1` (and far enough below the largest `int` for the depths
under it), whatever its name and data, because the only error `readAtom`
returns on a buffer is `io.EOF` and the loop ends on it; it returns nil for
every atom whose name is not a container tag.  For a container at depth `-2`
or below it returns nil only when the first `readAtom` fails: when a child is
read, `strings.Repeat` panics on the negative count. -/
theorem childrenInt_returns_nil (z : atomInt) :
    (-1 ≤ z.Depth → z.Depth + (2 * z.Data.length + 2) < 2 ^ 63 →
      ∃ evs, childrenInt z
        = some (.ret (if hasChild z.Header.Name then { z with Depth := z.Depth + 1 } else z,
                      ⟨evs, none⟩))) ∧
    (hasChild z.Header.Name = false → childrenInt z = some (.ret (z, ⟨[], none⟩))) ∧
    (hasChild z.Header.Name = true → -2 ^ 63 ≤ z.Depth → z.Depth ≤ -2 →
      (∀ e, readAtom z.Data = .error e →
        childrenInt z = some (.ret ({ z with Depth := z.Depth + 1 }, ⟨[], none⟩))) ∧
      (∀ c r', readAtom z.Data = .ok (c, r') → childrenInt z = some .panic)) ∧
    (∀ (buf : List Byte) (e : Error), readAtom buf = .error e → e = .EOF) := by
  have hleaf : hasChild z.Header.Name = false → childrenInt z = some (.ret (z, ⟨[], none⟩)) := by
    intro hc
    simp only [childrenInt, childrenIntFuel, hc, Bool.not_false, if_true]
  refine ⟨?_, hleaf, ?_, fun buf e h => readAtom_error buf e h⟩
  · intro hlo hhi
    by_cases hc : hasChild z.Header.Name = true
    · have hw : wrapInt64 (z.Depth + 1) = z.Depth + 1 := wrapInt64_id _ (by omega) (by omega)
      have hz : ({ z with Depth := z.Depth + 1 } : atomInt)
          = liftAtom ⟨z.Header, z.Data, z.Position, (z.Depth + 1).toNat⟩ := by
        simp only [liftAtom, Int.toNat_of_nonneg (show 0 ≤ z.Depth + 1 by omega)]
      obtain ⟨evs, hevs⟩ := (fuel_enough (2 * z.Data.length + 1)).2
        ⟨z.Header, z.Data, z.Position, (z.Depth + 1).toNat⟩ z.Data 0 (Nat.le_refl _)
      have hag := (childrenInt_agrees (2 * z.Data.length + 1)).2
        ⟨z.Header, z.Data, z.Position, (z.Depth + 1).toNat⟩ z.Data 0
        (by simp only [Int.toNat_of_nonneg (show 0 ≤ z.Depth + 1 by omega)]; push_cast; omega)
      rw [hevs, ← hz] at hag
      refine ⟨evs.map liftEvent, ?_⟩
      simp only [childrenInt, childrenIntFuel, hc, Bool.not_true, Bool.false_eq_true, if_false,
        hw, hag, if_true, Option.map_some', liftResult]
    · have hc0 : hasChild z.Header.Name = false := by simpa using hc
      exact ⟨[], by simp only [hleaf hc0, hc0, Bool.false_eq_true, if_false]⟩
  · intro hc hlo hhi
    have hw : wrapInt64 (z.Depth + 1) = z.Depth + 1 := wrapInt64_id _ (by omega) (by omega)
    have hneg : z.Depth + 1 < 0 := by omega
    constructor
    · intro e he
      have hE := readAtom_error _ _ he
      subst hE
      simp only [childrenInt, childrenIntFuel, childrenIntLoop, hc, Bool.not_true,
        Bool.false_eq_true, if_false, hw, he, if_true]
    · intro c r' hok
      simp only [childrenInt, childrenIntFuel, childrenIntLoop, hc, Bool.not_true,
        Bool.false_eq_true, if_false, hw, hok, hneg, if_true]

theorem childrenInt_returns_nil_witness :
    (∃ evs, childrenInt moovMinusOne
      = some (.ret (if hasChild moovMinusOne.Header.Name
                    then { moovMinusOne with Depth := moovMinusOne.Depth + 1 }
                    else moovMinusOne,
                    ⟨evs, none⟩))) ∧
    childrenInt moovMinusOne
      = some (.ret ({ moovMinusOne with Depth := 0 },
                    ⟨[⟨0, ⟨⟨8, tag "mvhd"⟩, [], 24, 0⟩⟩], none⟩)) :=
  ⟨(childrenInt_returns_nil moovMinusOne).1 (by decide) (by decide), by decide⟩

/-- C19 fails on a `moov` atom at depth `-2` that holds an `mvhd` box:
`children()` does not return nil, it panics in `strings.Repeat`. -/
theorem moovDeep_panics :
    childrenInt moovDeep = some .panic ∧
    ¬ (∃ z' evs, childrenInt moovDeep = some (.ret (z', ⟨evs, none⟩))) := by
  have h : childrenInt moovDeep = some .panic := by decide
  refine ⟨h, ?_⟩
  rintro ⟨z', evs, h'⟩
  rw [h] at h'
  cases h'

end MpegProbe

